import Mathlib

/-!
# Verification of the robust column-wise split finder (`updater_robust_colmaker.cc`)

A shallow embedding of the robust split-enumeration algorithm of
`src/tree/updater_robust_colmaker.cc`.  Machine floating point values
(`bst_float`) are modelled by exact rationals; the injected split evaluator
(`SplitEvaluator`) is an abstract function parameter of the enumeration
context.  Auxiliary types defined outside the repository file under
verification (`GradStats`, `SplitEntry`, `RegTree` mutators) are modelled
from the specification, as indicated by their doc comments.
-/

namespace RobustTrees

/-- `GradientPair` — first/second order gradient of one instance. -/
structure GradientPair where
  grad : ℚ
  hess : ℚ
deriving DecidableEq

/-- Modelled from the spec: `GradStats` (param.h is not part of the sources),
a commutative accumulator of `(sum_grad, sum_hess)`. -/
structure GradStats where
  sum_grad : ℚ
  sum_hess : ℚ
deriving DecidableEq

/-- The zero accumulator, result of `GradStats::Clear`. -/
def GradStats.zero : GradStats := ⟨0, 0⟩

/-- `GradStats::Add(GradStats)`. -/
def GradStats.add (a b : GradStats) : GradStats :=
  ⟨a.sum_grad + b.sum_grad, a.sum_hess + b.sum_hess⟩

/-- `GradStats::SetSubstract(a, b)` — componentwise difference. -/
def GradStats.sub (a b : GradStats) : GradStats :=
  ⟨a.sum_grad - b.sum_grad, a.sum_hess - b.sum_hess⟩

/-- `GradStats::SetUnion(a, b)`; the spec states union is equivalent to add. -/
def GradStats.setUnion (a b : GradStats) : GradStats := a.add b

/-- `GradStats::Add(gpair, info, ridx)` — accumulate one instance. -/
def GradStats.addPair (a : GradStats) (g : GradientPair) : GradStats :=
  ⟨a.sum_grad + g.grad, a.sum_hess + g.hess⟩

/-- `GradStats::Subtract(gpair, info, ridx)` — remove one instance. -/
def GradStats.subPair (a : GradStats) (g : GradientPair) : GradStats :=
  ⟨a.sum_grad - g.grad, a.sum_hess - g.hess⟩

/-- `GradStats::Empty()` — `sum_hess == 0`. -/
def GradStats.isEmpty (a : GradStats) : Prop := a.sum_hess = 0

instance (a : GradStats) : Decidable a.isEmpty := by
  unfold GradStats.isEmpty; infer_instance

/-- One entry of a feature column: instance index and feature value. -/
structure Entry where
  index : ℕ
  fvalue : ℚ
deriving DecidableEq

/-- Modelled from the spec: `SplitEntry` (param.h is not part of the sources) —
`(loss_chg, feature id, threshold, default-direction flag)`. -/
structure SplitEntry where
  loss_chg : ℚ
  split_index : ℕ
  split_value : ℚ
  default_left : Bool
deriving DecidableEq

/-- The default-constructed `SplitEntry`. -/
def SplitEntry.init : SplitEntry := ⟨0, 0, 0, false⟩

/-- Modelled from the spec: the monotone update rule of `SplitEntry::Update`:
replace only on strictly higher `loss_chg`, ties broken by lower feature id
then lower threshold. -/
def SplitEntry.needReplace (old : SplitEntry) (nl : ℚ) (fi : ℕ) (fv : ℚ) : Prop :=
  old.loss_chg < nl ∨
    (nl = old.loss_chg ∧ (fi < old.split_index ∨ (fi = old.split_index ∧ fv < old.split_value)))

instance (old : SplitEntry) (nl : ℚ) (fi : ℕ) (fv : ℚ) :
    Decidable (old.needReplace nl fi fv) := by
  unfold SplitEntry.needReplace; infer_instance

/-- Modelled from the spec: `SplitEntry::Update(loss_chg, split_index, split_value,
default_left)`. -/
def SplitEntry.update (old : SplitEntry) (nl : ℚ) (fi : ℕ) (fv : ℚ) (dl : Bool) : SplitEntry :=
  if old.needReplace nl fi fv then ⟨nl, fi, fv, dl⟩ else old

/-- Modelled from the spec: the distinct mutator that sets the threshold
without touching anything else (`update_split_value`). -/
def SplitEntry.updateSplitValue (s : SplitEntry) (v : ℚ) : SplitEntry :=
  { s with split_value := v }

/-- `kRtEps` — the tiny constant `1e-6` used as loss/threshold slack. -/
def rtEps : ℚ := 1 / 1000000

/-- The scan state `ThreadEntry` of `updater_robust_colmaker.cc` (the fields the
enumeration uses; `stats_extra` and `first_fvalue` are only touched by the
non-robust `ParallelFindSplit` path and are omitted). -/
structure ThreadEntry where
  stats : GradStats
  stats_left : GradStats
  stats_c_left : GradStats
  c_left_counter : ℕ
  stats_unc_right : GradStats
  stats_unc : GradStats
  data_unc_right : List Entry
  data_unc : List Entry
  last_fvalue : ℚ
  best : SplitEntry
deriving DecidableEq

/-- The per-call context of one `EnumerateSplit` invocation: parameters,
gradients, position map, per-node statistics and the injected evaluator
(`ComputeSplitScore`), all read-only during a scan. -/
structure EnumCtx where
  eps : ℚ
  min_child_weight : ℚ
  d_step : ℤ
  fid : ℕ
  gpair : ℕ → GradientPair
  position : ℕ → ℤ
  snodeStats : ℕ → GradStats
  rootGain : ℕ → ℚ
  score : ℕ → ℕ → GradStats → GradStats → ℚ

/-- The per-node temp-state reset at the head of `EnumerateSplit`
(lines 591–599): clear `stats`, `stats_left`, `data_unc_right`, `data_unc`,
`stats_unc_right`, `stats_c_left`, `c_left_counter`, `stats_unc`. -/
def clearEntry (e : ThreadEntry) : ThreadEntry :=
  { e with
    stats := GradStats.zero
    stats_left := GradStats.zero
    data_unc_right := []
    data_unc := []
    stats_unc_right := GradStats.zero
    stats_c_left := GradStats.zero
    c_left_counter := 0
    stats_unc := GradStats.zero }

/-- The reset applied to every frontier node in `qexpand` at the start of an
enumeration over a column. -/
def resetTemp (qexpand : List ℕ) (temp : ℕ → ThreadEntry) : ℕ → ThreadEntry :=
  fun m => if m ∈ qexpand then clearEntry (temp m) else temp m

/-- The drain of `data_unc_right` (lines 669–678): pop entries whose value is
below `eta`, moving their gradient pair into `stats_left` and out of
`stats_unc_right`.  Returns the remaining queue, the new `stats_left` and the
new `stats_unc_right`. -/
def drainUR (gp : ℕ → GradientPair) (eta : ℚ) :
    List Entry → GradStats → GradStats → List Entry × GradStats × GradStats
  | [], sl, sur => ([], sl, sur)
  | en :: rest, sl, sur =>
    if en.fvalue < eta then
      drainUR gp eta rest (sl.addPair (gp en.index)) (sur.subPair (gp en.index))
    else (en :: rest, sl, sur)

/-- The drain of `data_unc` (lines 680–691): pop entries whose value is below
`eta - eps`, moving their gradient pair into `stats_c_left` (incrementing
`c_left_counter`) and out of `stats_unc`. -/
def drainU (gp : ℕ → GradientPair) (lim : ℚ) :
    List Entry → GradStats → ℕ → GradStats → List Entry × GradStats × ℕ × GradStats
  | [], scl, cnt, su => ([], scl, cnt, su)
  | en :: rest, scl, cnt, su =>
    if en.fvalue < lim then
      drainU gp lim rest (scl.addPair (gp en.index)) (cnt + 1) (su.subPair (gp en.index))
    else (en :: rest, scl, cnt, su)

/-- Both drains applied to the scan state of a node, as executed at the head of
every non-first sweep step with threshold `eta`. -/
def robustDrain (ctx : EnumCtx) (eta : ℚ) (e : ThreadEntry) : ThreadEntry :=
  let r1 := drainUR ctx.gpair eta e.data_unc_right e.stats_left e.stats_unc_right
  let r2 := drainU ctx.gpair (eta - ctx.eps) e.data_unc e.stats_c_left e.c_left_counter e.stats_unc
  { e with
    data_unc_right := r1.1
    stats_left := r1.2.1
    stats_unc_right := r1.2.2
    data_unc := r2.1
    stats_c_left := r2.2.1
    c_left_counter := r2.2.2.1
    stats_unc := r2.2.2.2 }

/-- Direction-aware loss change: `ComputeSplitScore` with the two sides swapped
for a backward sweep (`d_step == -1`), minus the node's `root_gain`. -/
def scoreDir (ctx : EnumCtx) (nid : ℕ) (l r : GradStats) : ℚ :=
  if ctx.d_step = -1 then ctx.score nid ctx.fid r l - ctx.rootGain nid
  else ctx.score nid ctx.fid l r - ctx.rootGain nid

/-- Loss change of the nominal partition: left `stats_left`, right its
complement in the node statistics. -/
def nominalLoss (ctx : EnumCtx) (nid : ℕ) (e : ThreadEntry) : ℚ :=
  scoreDir ctx nid e.stats_left ((ctx.snodeStats nid).sub e.stats_left)

/-- Loss change of the all-uncertain-left partition: left
`stats_c_left ∪ stats_unc`. -/
def putLeftLoss (ctx : EnumCtx) (nid : ℕ) (e : ThreadEntry) : ℚ :=
  let allLeft := e.stats_c_left.setUnion e.stats_unc
  scoreDir ctx nid allLeft ((ctx.snodeStats nid).sub allLeft)

/-- Loss change of the all-uncertain-right partition: left `stats_c_left`. -/
def putRightLoss (ctx : EnumCtx) (nid : ℕ) (e : ThreadEntry) : ℚ :=
  scoreDir ctx nid e.stats_c_left ((ctx.snodeStats nid).sub e.stats_c_left)

/-- Loss change of the swap partition: left `stats_c_left ∪ stats_unc_right`. -/
def swapLoss (ctx : EnumCtx) (nid : ℕ) (e : ThreadEntry) : ℚ :=
  let swLeft := e.stats_c_left.setUnion e.stats_unc_right
  scoreDir ctx nid swLeft ((ctx.snodeStats nid).sub swLeft)

/-- The candidate-evaluation block of the main sweep (lines 705–787), acting on
the already-drained state: gate on `fvalue ≠ last_fvalue`, on
`stats.sum_hess ≥ min_child_weight` and on the complement of `stats_left`;
then sequentially minimize over the three uncertainty partitions when
`data_unc` is nonempty, and offer `(loss, fid, eta, d_step == -1)` to `best`. -/
def robustEval (ctx : EnumCtx) (nid : ℕ) (eta fvalue : ℚ) (e : ThreadEntry) : ThreadEntry :=
  if fvalue ≠ e.last_fvalue ∧ ctx.min_child_weight ≤ e.stats.sum_hess then
    if ctx.min_child_weight ≤ ((ctx.snodeStats nid).sub e.stats_left).sum_hess then
      let l0 := nominalLoss ctx nid e
      let loss :=
        if 0 < e.data_unc.length then
          let l1 := if putLeftLoss ctx nid e < l0 then putLeftLoss ctx nid e else l0
          let l2 := if putRightLoss ctx nid e < l1 then putRightLoss ctx nid e else l1
          if swapLoss ctx nid e < l2 then swapLoss ctx nid e else l2
        else l0
      { e with best := e.best.update loss ctx.fid eta (ctx.d_step = -1) }
    else e
  else e

/-- Absorption of the current entry into the scan state (lines 651–659 for the
first hit, lines 789–796 afterwards): add to `stats`, set `last_fvalue`, push
the entry on both queues and add its pair to both uncertainty accumulators. -/
def absorbEntry (ctx : EnumCtx) (en : Entry) (e : ThreadEntry) : ThreadEntry :=
  { e with
    stats := e.stats.addPair (ctx.gpair en.index)
    last_fvalue := en.fvalue
    data_unc_right := e.data_unc_right ++ [en]
    data_unc := e.data_unc ++ [en]
    stats_unc_right := e.stats_unc_right.addPair (ctx.gpair en.index)
    stats_unc := e.stats_unc.addPair (ctx.gpair en.index) }

/-- One step of the main sweep of `EnumerateSplit` for the node the entry
dispatches to: the first hit only absorbs; afterwards drain, evaluate at
`eta = fvalue - eps`, and absorb. -/
def enumStep (ctx : EnumCtx) (nid : ℕ) (e : ThreadEntry) (en : Entry) : ThreadEntry :=
  if e.stats.isEmpty then
    absorbEntry ctx en e
  else
    absorbEntry ctx en
      (robustEval ctx nid (en.fvalue - ctx.eps) en.fvalue
        (robustDrain ctx (en.fvalue - ctx.eps) e))

/-- One step of the sweep over the whole column: resolve the node of the entry
through the position map, skip excluded instances (negative position). -/
def enumSweepStep (ctx : EnumCtx) (temp : ℕ → ThreadEntry) (en : Entry) : ℕ → ThreadEntry :=
  let p := ctx.position en.index
  if p < 0 then temp
  else fun m => if m = p.toNat then enumStep ctx p.toNat (temp p.toNat) en else temp m

/-- The main sweep of `EnumerateSplit` over a column given in ascending order. -/
def enumSweep (ctx : EnumCtx) (entries : List Entry) (temp : ℕ → ThreadEntry) :
    ℕ → ThreadEntry :=
  entries.foldl (enumSweepStep ctx) temp

/-- The entries of a column that dispatch to node `nid` (position equal to
`nid`, in particular non-negative). -/
def nodeScan (ctx : EnumCtx) (nid : ℕ) (entries : List Entry) : List Entry :=
  entries.filter (fun en => ctx.position en.index = (nid : ℤ))

/-- The closing pass of `EnumerateSplit` for one frontier node
(lines 806–825): the all-seen-vs-nothing candidate, offered at threshold
`last_fvalue ± (|last_fvalue| + kRtEps + eps)`. -/
def closingNode (ctx : EnumCtx) (nid : ℕ) (e : ThreadEntry) : ThreadEntry :=
  let c := (ctx.snodeStats nid).sub e.stats
  if ctx.min_child_weight ≤ e.stats.sum_hess ∧ ctx.min_child_weight ≤ c.sum_hess then
    let loss := scoreDir ctx nid e.stats c
    let gap := |e.last_fvalue| + rtEps + ctx.eps
    let delta := if ctx.d_step = 1 then gap else -gap
    { e with best := e.best.update loss ctx.fid (e.last_fvalue + delta) (ctx.d_step = -1) }
  else e

/-- The closing pass over all frontier nodes. -/
def closingPass (ctx : EnumCtx) (qexpand : List ℕ) (temp : ℕ → ThreadEntry) :
    ℕ → ThreadEntry :=
  fun m => if m ∈ qexpand then closingNode ctx m (temp m) else temp m

/-- The state of the midpoint post-pass (lines 831–856): the scan state, the
per-node most recent feature value (`last_fvalue_map`) and the per-node
already-corrected flag (`updated_nid`). -/
structure MidState where
  temp : ℕ → ThreadEntry
  lastMap : ℕ → Option ℚ
  updated : ℕ → Bool

/-- One step of the midpoint post-pass: skip excluded instances; skip (without
recording the value) nodes whose best is not on this feature or that were
already corrected; otherwise move the stored threshold to the midpoint when it
lies in `(previous value, current value]`, and record the current value. -/
def midStep (ctx : EnumCtx) (s : MidState) (en : Entry) : MidState :=
  let p := ctx.position en.index
  if p < 0 then s
  else
    let nid := p.toNat
    let e := s.temp nid
    if e.best.split_index ≠ ctx.fid ∨ s.updated nid = true then s
    else
      match s.lastMap nid with
      | none => { s with lastMap := fun m => if m = nid then some en.fvalue else s.lastMap m }
      | some prev =>
        if prev < e.best.split_value ∧ e.best.split_value ≤ en.fvalue then
          { temp := fun m =>
              if m = nid then
                { e with best := e.best.updateSplitValue ((en.fvalue + prev) / 2) }
              else s.temp m
            lastMap := fun m => if m = nid then some en.fvalue else s.lastMap m
            updated := fun m => if m = nid then true else s.updated m }
        else { s with lastMap := fun m => if m = nid then some en.fvalue else s.lastMap m }

/-- The midpoint post-pass over the whole column. -/
def midPass (ctx : EnumCtx) (entries : List Entry) (temp : ℕ → ThreadEntry) :
    ℕ → ThreadEntry :=
  (entries.foldl (midStep ctx) ⟨temp, fun _ => none, fun _ => false⟩).temp

/-- The order normalization at the head of `EnumerateSplit` (lines 554–573):
the sweep is defined on ascending order; a descending slice (first value
greater than last value) is iterated from the other end. -/
def normalizeCol (col : List Entry) : List Entry :=
  match col.head?, col.getLast? with
  | some h, some l => if l.fvalue < h.fvalue then col.reverse else col
  | _, _ => col

/-- The whole of `EnumerateSplit` for one column: order normalization,
per-node reset, main sweep, closing pass, midpoint post-pass. -/
def enumerateSplit (ctx : EnumCtx) (qexpand : List ℕ) (col : List Entry)
    (temp : ℕ → ThreadEntry) : ℕ → ThreadEntry :=
  let es := normalizeCol col
  midPass ctx es (closingPass ctx qexpand (enumSweep ctx es (resetTemp qexpand temp)))

/-! ## The standard (non-robust) enumeration

`UpdateEnumeration` (lines 428–461) together with the closing block of
`EnumerateSplitCacheOpt` (lines 518–537): the plain scan the robust algorithm
is expected to collapse to when `eps = 0`. -/

/-- `UpdateEnumeration`: one step of the standard scan. -/
def updateEnumeration (ctx : EnumCtx) (nid : ℕ) (e : ThreadEntry) (en : Entry) : ThreadEntry :=
  if e.stats.isEmpty then
    { e with stats := e.stats.addPair (ctx.gpair en.index), last_fvalue := en.fvalue }
  else
    let e1 :=
      if en.fvalue ≠ e.last_fvalue ∧ ctx.min_child_weight ≤ e.stats.sum_hess then
        let c := (ctx.snodeStats nid).sub e.stats
        if ctx.min_child_weight ≤ c.sum_hess then
          let b := e.best.update (scoreDir ctx nid e.stats c) ctx.fid
            ((en.fvalue + e.last_fvalue) / 2) (ctx.d_step = -1)
          { e with best := b }
        else e
      else e
    { e1 with stats := e1.stats.addPair (ctx.gpair en.index), last_fvalue := en.fvalue }

/-- One standard sweep step over the whole column with position dispatch. -/
def stdSweepStep (ctx : EnumCtx) (temp : ℕ → ThreadEntry) (en : Entry) : ℕ → ThreadEntry :=
  let p := ctx.position en.index
  if p < 0 then temp
  else fun m => if m = p.toNat then updateEnumeration ctx p.toNat (temp p.toNat) en else temp m

/-- The closing block of the standard enumeration (lines 518–537): the
all-sum candidate at threshold `last_fvalue ± (|last_fvalue| + kRtEps)`. -/
def stdClosingNode (ctx : EnumCtx) (nid : ℕ) (e : ThreadEntry) : ThreadEntry :=
  let c := (ctx.snodeStats nid).sub e.stats
  if ctx.min_child_weight ≤ e.stats.sum_hess ∧ ctx.min_child_weight ≤ c.sum_hess then
    let loss := scoreDir ctx nid e.stats c
    let gap := |e.last_fvalue| + rtEps
    let delta := if ctx.d_step = 1 then gap else -gap
    { e with best := e.best.update loss ctx.fid (e.last_fvalue + delta) (ctx.d_step = -1) }
  else e

/-- The per-node reset of the standard enumeration (lines 471–473): only
`stats` is cleared. -/
def stdResetTemp (qexpand : List ℕ) (temp : ℕ → ThreadEntry) : ℕ → ThreadEntry :=
  fun m => if m ∈ qexpand then { temp m with stats := GradStats.zero } else temp m

/-- The whole standard enumeration for one column: reset, sweep, closing. -/
def stdEnumerate (ctx : EnumCtx) (qexpand : List ℕ) (col : List Entry)
    (temp : ℕ → ThreadEntry) : ℕ → ThreadEntry :=
  fun m =>
    if m ∈ qexpand then
      stdClosingNode ctx m ((col.foldl (stdSweepStep ctx) (stdResetTemp qexpand temp)) m)
    else (col.foldl (stdSweepStep ctx) (stdResetTemp qexpand temp)) m

/-- The split a node's final `best` selects at commit: a real split only when
`loss_chg > kRtEps`, otherwise none (the node becomes a leaf). -/
def selectedSplit (b : SplitEntry) : Option (ℕ × ℚ × Bool) :=
  if rtEps < b.loss_chg then some (b.split_index, b.split_value, b.default_left) else none

/-! ## Tree commit and instance positions -/

/-- Modelled from the spec: one node of the `RegTree` arena (the tree type is
not part of the sources): parent/child indices, the stored split, and the leaf
flag and value. -/
structure TreeNode where
  parent : ℤ
  cleft : ℤ
  cright : ℤ
  split_index : ℕ
  split_cond : ℚ
  default_left : Bool
  is_leaf : Bool
  leaf_value : ℚ
deriving DecidableEq

/-- A fresh tree node. -/
def TreeNode.fresh (parent : ℤ) : TreeNode :=
  ⟨parent, -1, -1, 0, 0, false, true, 0⟩

/-- Modelled from the spec: `RegTree::AddChilds(nid)` — append two fresh
children and wire them to `nid`. -/
def addChilds (t : List TreeNode) (nid : ℕ) : List TreeNode :=
  (t.set nid { (t.getD nid (TreeNode.fresh (-1))) with
      cleft := (t.length : ℤ), cright := (t.length : ℤ) + 1, is_leaf := false })
    ++ [TreeNode.fresh (nid : ℤ), TreeNode.fresh (nid : ℤ)]

/-- Modelled from the spec: `Node::SetSplit(split_index, split_value,
default_left)`. -/
def setSplitAt (t : List TreeNode) (nid : ℕ) (fi : ℕ) (fv : ℚ) (dl : Bool) : List TreeNode :=
  t.set nid { (t.getD nid (TreeNode.fresh (-1))) with
    split_index := fi, split_cond := fv, default_left := dl, is_leaf := false }

/-- Modelled from the spec: `Node::SetLeaf(value, right)` — turn the node into
a leaf with the given value; `right = -1` marks a finalized (non-fresh) leaf. -/
def setLeafAt (t : List TreeNode) (nid : ℕ) (v : ℚ) (right : ℤ) : List TreeNode :=
  t.set nid { (t.getD nid (TreeNode.fresh (-1))) with
    is_leaf := true, leaf_value := v, cright := right }

/-- The node entry owned by the builder: statistics, gains and the reduced
best split. -/
structure NodeEntry where
  stats : GradStats
  root_gain : ℚ
  weight : ℚ
  best : SplitEntry
deriving DecidableEq

/-- The commit block of `FindSplit` (lines 919–931): if `best.loss_chg >
kRtEps` add two children (marked fresh leaves) and store the split; otherwise
turn the node into a leaf of weight `weight * learning_rate`. -/
def commitNode (lr : ℚ) (e : NodeEntry) (nid : ℕ) (t : List TreeNode) : List TreeNode :=
  if rtEps < e.best.loss_chg then
    let t1 := addChilds t nid
    let t2 := setSplitAt t1 nid e.best.split_index e.best.split_value e.best.default_left
    let t3 := setLeafAt t2 t.length 0 0
    setLeafAt t3 (t.length + 1) 0 0
  else setLeafAt t nid (e.weight * lr) (-1)

/-- The bitwise complement on signed node ids: `~n = -n - 1` (exact on two's
complement integers, no overflow for node ids). -/
def cneg (n : ℤ) : ℤ := -n - 1

/-- `DecodePosition` (lines 1014–1017). -/
def decodePosition (pos : ℕ → ℤ) (ridx : ℕ) : ℤ :=
  if pos ridx < 0 then cneg (pos ridx) else pos ridx

/-- `SetEncodePosition` (lines 1019–1025): store the complement when the
instance is currently excluded, the plain id otherwise. -/
def setEncodePosition (pos : ℕ → ℤ) (ridx : ℕ) (nid : ℤ) : ℕ → ℤ :=
  fun r => if r = ridx then (if pos ridx < 0 then cneg nid else nid) else pos r

/-- The per-instance body of `ResetPosition` (lines 947–965): finalized leaves
mark the instance excluded via the complement; split nodes push the instance
to the default child. -/
def resetPositionStep (tree : List TreeNode) (pos : ℕ → ℤ) (ridx : ℕ) : ℕ → ℤ :=
  let nid := (decodePosition pos ridx).toNat
  let node := tree.getD nid (TreeNode.fresh (-1))
  if node.is_leaf then
    if node.cright = -1 then fun r => if r = ridx then cneg (nid : ℤ) else pos r
    else pos
  else
    if node.default_left then setEncodePosition pos ridx node.cleft
    else setEncodePosition pos ridx node.cright

/-- Sum of the gradient pairs of a list of entries. -/
def gsSum (gp : ℕ → GradientPair) : List Entry → GradStats
  | [] => GradStats.zero
  | en :: rest => (gsSum gp rest).addPair (gp en.index)

/-! ## Concrete sample data used by witnesses and counterexamples -/

/-- A sample scan state with nonzero fields. -/
def sampleTE : ThreadEntry :=
  ⟨⟨1, 2⟩, ⟨3, 4⟩, ⟨5, 6⟩, 7, ⟨8, 9⟩, ⟨10, 11⟩, [⟨0, 1⟩], [⟨0, 1⟩], 5, ⟨3, 2, 1, true⟩⟩

/-- A blank scan state. -/
def blankTE : ThreadEntry :=
  ⟨GradStats.zero, GradStats.zero, GradStats.zero, 0, GradStats.zero,
    GradStats.zero, [], [], 0, SplitEntry.init⟩

/-- Sample gradients: instance 1 carries a heavy gradient with hessian 1/2
(below a `min_child_weight` of 1). -/
def gpW : ℕ → GradientPair := fun i =>
  if i = 0 then ⟨1, 1⟩ else if i = 1 then ⟨-4, 1 / 2⟩ else ⟨1, 1⟩

/-- A Newton-style split score (xgboost gain with zero regularization);
`q / 0 = 0` makes it total. -/
def scoreW : ℕ → ℕ → GradStats → GradStats → ℚ := fun _ _ l r =>
  l.sum_grad ^ 2 / l.sum_hess + r.sum_grad ^ 2 / r.sum_hess

/-- A concrete enumeration context: `eps = 6/5`, `min_child_weight = 1`,
forward sweep on feature 0, all instances at node 0, node statistics the
total of `gpW` over instances 0, 1, 2, root gain `-1`. -/
def ctxC : EnumCtx :=
  ⟨6 / 5, 1, 1, 0, gpW, fun _ => 0, fun _ => ⟨-2, 5 / 2⟩, fun _ => -1, scoreW⟩

/-- The sample column: values 0, 1, 2 at instances 0, 1, 2. -/
def colC : List Entry := [⟨0, 0⟩, ⟨1, 1⟩, ⟨2, 2⟩]

/-- The state of node 0 after the first sweep step of `ctxC`. -/
def preA : ThreadEntry :=
  enumSweep ctxC [⟨0, 0⟩] (resetTemp [0] (fun _ => blankTE)) 0

/-- The drained state of node 0 at the second entry of `colC`
(`eta = 1 - 6/5 = -1/5`). -/
def sdA : ThreadEntry := robustDrain ctxC (-(1 / 5)) preA

/-- The state of node 0 after the first two sweep steps of `ctxC`. -/
def preC : ThreadEntry :=
  enumSweep ctxC [⟨0, 0⟩, ⟨1, 1⟩] (resetTemp [0] (fun _ => blankTE)) 0

/-- The drained state of node 0 at the third entry of `colC`
(`eta = 2 - 6/5 = 4/5`). -/
def sdC : ThreadEntry := robustDrain ctxC (4 / 5) preC

/-- The queue/accumulator consistency invariant of the robust scan state: the
uncertainty accumulators are the sums of their queues, `stats_left` and
`stats_c_left` complete the scanned total `stats`, and `data_unc_right` is a
suffix of `data_unc`. -/
def QInv (gp : ℕ → GradientPair) (e : ThreadEntry) : Prop :=
  e.stats_unc = gsSum gp e.data_unc ∧
  e.stats_unc_right = gsSum gp e.data_unc_right ∧
  e.stats_left.add (gsSum gp e.data_unc_right) = e.stats ∧
  e.stats_c_left.add (gsSum gp e.data_unc) = e.stats ∧
  e.data_unc_right <:+ e.data_unc

/-- A context for the eps = 0 reduction witness: backward sweep, feature 2,
`min_child_weight = 1`, two instances at node 0. -/
def ctxZ : EnumCtx :=
  ⟨0, 1, -1, 2, fun i => if i = 0 then ⟨2, 1⟩ else ⟨-3, 1⟩, fun _ => 0,
    fun _ => ⟨-1, 2⟩, fun _ => 0, scoreW⟩

/-- The column for the eps = 0 reduction witness. -/
def colZ : List Entry := [⟨0, 3⟩, ⟨1, 7⟩]

/-- A forward-sweep context with `eps = 0` for the eps = 0 reduction witness. -/
def ctxF : EnumCtx :=
  ⟨0, 1, 1, 2, fun i => if i = 0 then ⟨2, 1⟩ else ⟨-3, 1⟩, fun _ => 0,
    fun _ => ⟨-1, 2⟩, fun _ => 0, scoreW⟩

/-- The iteration order of the standard enumeration over a column stored in
ascending order: `EnumerateSplitCacheOpt` iterates from `begin` to `end` with
step `d_step` and no order normalization, so a backward sweep visits the
column in descending order. -/
def stdScanOrder (ctx : EnumCtx) (col : List Entry) : List Entry :=
  if ctx.d_step = -1 then col.reverse else col

/-- The standard enumeration as invoked on an ascending column in either
direction. -/
def stdEnumerateDir (ctx : EnumCtx) (qexpand : List ℕ) (col : List Entry)
    (temp : ℕ → ThreadEntry) : ℕ → ThreadEntry :=
  stdEnumerate ctx qexpand (stdScanOrder ctx col) temp

/-- Gradients for the backward-direction counterexample: instances 0 and 1
each carry hessian 1/2 (alone below a `min_child_weight` of 1); instance 2
has no recorded value on the feature and only contributes to the node
statistics. -/
def gpB : ℕ → GradientPair := fun i =>
  if i = 0 then ⟨1, 1 / 2⟩ else if i = 1 then ⟨1, 1 / 2⟩ else ⟨2, 1⟩

/-- A backward-sweep context with `eps = 0`: feature 0, `min_child_weight = 1`,
node statistics the total of `gpB` over instances 0, 1, 2, root gain 0 and the
symmetric Newton-style score. -/
def ctxB : EnumCtx :=
  ⟨0, 1, -1, 0, gpB, fun _ => 0, fun _ => ⟨4, 2⟩, fun _ => 0, scoreW⟩

/-- The (ascending) column for the backward-direction counterexample: values
of mixed sign, so the maximum- and minimum-based closing thresholds differ. -/
def colB : List Entry := [⟨0, -2⟩, ⟨1, 2⟩]

/-- The midpoint post-pass restricted to the state components of one node:
the node's scan entry, its recorded previous value and its corrected flag. -/
def midStepN (ctx : EnumCtx) (s : ThreadEntry × Option ℚ × Bool) (en : Entry) :
    ThreadEntry × Option ℚ × Bool :=
  if s.1.best.split_index ≠ ctx.fid ∨ s.2.2 = true then s
  else
    match s.2.1 with
    | none => (s.1, some en.fvalue, s.2.2)
    | some prev =>
      if prev < s.1.best.split_value ∧ s.1.best.split_value ≤ en.fvalue then
        ({ s.1 with best := s.1.best.updateSplitValue ((en.fvalue + prev) / 2) },
          some en.fvalue, true)
      else (s.1, some en.fvalue, s.2.2)

/-- The per-node relation between the robust scan state (at `eps = 0`) and the
standard scan state after the same processed entries `done`: totals and last
value agree, the two queues coincide and complete `stats_left` to `stats`,
queue values are bounded by the last value, and the bests are related by
`BestRel`. -/
def BestRel (ctx : EnumCtx) (done : List Entry) (br bs : SplitEntry) : Prop :=
  (br.loss_chg = 0 ∧ bs.loss_chg = 0) ∨
  (br.loss_chg = bs.loss_chg ∧ 0 < br.loss_chg ∧
    br.split_index = ctx.fid ∧ bs.split_index = ctx.fid ∧
    br.default_left = bs.default_left ∧
    ∃ pre a b suf, done = pre ++ a :: b :: suf ∧
      a.fvalue < b.fvalue ∧ br.split_value = b.fvalue ∧
      bs.split_value = (b.fvalue + a.fvalue) / 2)

/-- See `BestRel`. -/
def SweepRel (ctx : EnumCtx) (done : List Entry) (er es_ : ThreadEntry) : Prop :=
  er.stats = es_.stats ∧
  er.last_fvalue = es_.last_fvalue ∧
  er.data_unc = er.data_unc_right ∧
  er.stats_left.add (gsSum ctx.gpair er.data_unc_right) = er.stats ∧
  (∀ x ∈ er.data_unc, x.fvalue ≤ er.last_fvalue) ∧
  (done = [] → er.stats = GradStats.zero ∧ er.data_unc = []) ∧
  (∀ x ∈ done, x.fvalue ≤ er.last_fvalue) ∧
  (done ≠ [] → ∃ dpre dlast, done = dpre ++ [dlast] ∧ dlast.fvalue = er.last_fvalue) ∧
  BestRel ctx done er.best es_.best

/-- The relation between the two bests after the closing pass, before the
midpoint post-pass repairs the robust threshold. -/
def FinalRel (ctx : EnumCtx) (es : List Entry) (br bs : SplitEntry) : Prop :=
  (br.loss_chg = 0 ∧ bs.loss_chg = 0) ∨
  (br = bs ∧ 0 < br.loss_chg ∧ ∀ x ∈ es, x.fvalue < br.split_value) ∨
  (br.loss_chg = bs.loss_chg ∧ 0 < br.loss_chg ∧
    br.split_index = ctx.fid ∧ bs.split_index = ctx.fid ∧
    br.default_left = bs.default_left ∧
    ∃ pre a b suf, es = pre ++ a :: b :: suf ∧
      a.fvalue < b.fvalue ∧ br.split_value = b.fvalue ∧
      bs.split_value = (b.fvalue + a.fvalue) / 2)

/-! ## Theorems -/

theorem GradStats.add_zero (a : GradStats) : a.add GradStats.zero = a := by
  cases a; simp [GradStats.add, GradStats.zero]

theorem GradStats.addPair_sum (a : GradStats) (g : GradientPair) :
    a.addPair g = a.add ⟨g.grad, g.hess⟩ := rfl

/-- C7: at the start of every enumeration over a column, exactly the eight
scan-state fields of each frontier node are cleared, `best` (and
`last_fvalue`) are preserved, and nodes outside the frontier are untouched. -/
theorem C7_reset_frame (qexpand : List ℕ) (temp : ℕ → ThreadEntry) (nid : ℕ) :
    (nid ∈ qexpand →
      (resetTemp qexpand temp nid).stats = GradStats.zero ∧
      (resetTemp qexpand temp nid).stats_left = GradStats.zero ∧
      (resetTemp qexpand temp nid).stats_c_left = GradStats.zero ∧
      (resetTemp qexpand temp nid).stats_unc = GradStats.zero ∧
      (resetTemp qexpand temp nid).stats_unc_right = GradStats.zero ∧
      (resetTemp qexpand temp nid).data_unc_right = [] ∧
      (resetTemp qexpand temp nid).data_unc = [] ∧
      (resetTemp qexpand temp nid).c_left_counter = 0 ∧
      (resetTemp qexpand temp nid).best = (temp nid).best ∧
      (resetTemp qexpand temp nid).last_fvalue = (temp nid).last_fvalue) ∧
    (nid ∉ qexpand → resetTemp qexpand temp nid = temp nid) := by
  constructor
  · intro h
    simp [resetTemp, clearEntry, h]
  · intro h
    simp [resetTemp, h]

/-- Witness for C7 at a concrete scan state. -/
theorem C7_reset_frame_witness :
    (resetTemp [0] (fun _ => sampleTE) 0).stats = GradStats.zero ∧
    (resetTemp [0] (fun _ => sampleTE) 0).best = sampleTE.best ∧
    resetTemp [0] (fun _ => sampleTE) 1 = sampleTE :=
  ⟨((C7_reset_frame [0] (fun _ => sampleTE) 0).1 (by decide)).1,
   ((C7_reset_frame [0] (fun _ => sampleTE) 0).1 (by decide)).2.2.2.2.2.2.2.2.1,
   (C7_reset_frame [0] (fun _ => sampleTE) 1).2 (by decide)⟩

/-- C5: the closing pass offers, to every frontier node whose scanned total
and its complement both meet `min_child_weight`, the nominal all-seen
candidate at threshold `last_fvalue + sign(d)·(|last_fvalue| + tiny + eps)`
with `default_left` exactly when `d == -1`. -/
theorem C5_closing_candidate (ctx : EnumCtx) (nid : ℕ) (e : ThreadEntry)
    (hd : ctx.d_step = 1 ∨ ctx.d_step = -1)
    (h1 : ctx.min_child_weight ≤ e.stats.sum_hess)
    (h2 : ctx.min_child_weight ≤ ((ctx.snodeStats nid).sub e.stats).sum_hess) :
    (closingNode ctx nid e).best =
      e.best.update (scoreDir ctx nid e.stats ((ctx.snodeStats nid).sub e.stats)) ctx.fid
        (e.last_fvalue + (ctx.d_step : ℚ) * (|e.last_fvalue| + rtEps + ctx.eps))
        (decide (ctx.d_step = -1)) ∧
    (closingNode ctx nid e).stats = e.stats ∧
    (closingNode ctx nid e).last_fvalue = e.last_fvalue := by
  rcases hd with hd | hd <;>
    refine ⟨?_, ?_, ?_⟩ <;>
      simp [closingNode, hd, h1, h2, one_mul, neg_mul]

/-- Witness for C5 at a concrete closing state: backward sweep `ctxZ`, state
with totals `(2, 1)` of node totals `(-1, 2)`, last value `3`. -/
theorem C5_closing_candidate_witness :
    (closingNode ctxZ 0 { blankTE with stats := ⟨2, 1⟩, last_fvalue := 3 }).best =
      ⟨13, 2, -(1 / 1000000 : ℚ), true⟩ := by
  have h := C5_closing_candidate ctxZ 0 { blankTE with stats := ⟨2, 1⟩, last_fvalue := 3 }
    (Or.inr rfl) (by norm_num [ctxZ, blankTE])
    (by norm_num [ctxZ, blankTE, GradStats.sub])
  rw [h.1]
  norm_num [ctxZ, blankTE, scoreDir, scoreW, rtEps, GradStats.sub,
    SplitEntry.update, SplitEntry.needReplace, SplitEntry.init]

theorem getD_set_self {α : Type} (t : List α) (n : ℕ) (x d : α) (h : n < t.length) :
    (t.set n x).getD n d = x := by
  simp [List.getD, List.getElem?_set, h]

theorem getD_set_ne {α : Type} (t : List α) (n m : ℕ) (x d : α) (h : m ≠ n) :
    (t.set n x).getD m d = t.getD m d := by
  simp [List.getD, List.getElem?_set, h.symm]

theorem getD_append_left {α : Type} (t l : List α) (n : ℕ) (d : α) (h : n < t.length) :
    (t ++ l).getD n d = t.getD n d := by
  simp [List.getD, List.getElem?_append, h]

theorem getD_append_fst {α : Type} (t : List α) (x y d : α) :
    (t ++ [x, y]).getD t.length d = x := by
  rw [List.getD, List.get?_eq_getElem?, List.getElem?_append_right (le_refl _)]
  simp

theorem getD_append_snd {α : Type} (t : List α) (x y d : α) :
    (t ++ [x, y]).getD (t.length + 1) d = y := by
  rw [List.getD, List.get?_eq_getElem?, List.getElem?_append_right (by omega)]
  simp

/-- C9: at commit, a node whose best `loss_chg` exceeds `kRtEps` gets two
children and the stored split; otherwise it is converted (without error) to a
leaf of weight `weight * learning_rate` with no split recorded. -/
theorem C9_commit (lr : ℚ) (e : NodeEntry) (nid : ℕ) (t : List TreeNode)
    (hn : nid < t.length) :
    (rtEps < e.best.loss_chg →
      (commitNode lr e nid t).length = t.length + 2 ∧
      ((commitNode lr e nid t).getD nid (TreeNode.fresh (-1))).split_index
        = e.best.split_index ∧
      ((commitNode lr e nid t).getD nid (TreeNode.fresh (-1))).split_cond
        = e.best.split_value ∧
      ((commitNode lr e nid t).getD nid (TreeNode.fresh (-1))).default_left
        = e.best.default_left ∧
      ((commitNode lr e nid t).getD nid (TreeNode.fresh (-1))).is_leaf = false ∧
      ((commitNode lr e nid t).getD nid (TreeNode.fresh (-1))).cleft = (t.length : ℤ) ∧
      ((commitNode lr e nid t).getD nid (TreeNode.fresh (-1))).cright = (t.length : ℤ) + 1 ∧
      ((commitNode lr e nid t).getD t.length (TreeNode.fresh (-1))).is_leaf = true ∧
      ((commitNode lr e nid t).getD (t.length + 1) (TreeNode.fresh (-1))).is_leaf = true) ∧
    (e.best.loss_chg ≤ rtEps →
      (commitNode lr e nid t).length = t.length ∧
      ((commitNode lr e nid t).getD nid (TreeNode.fresh (-1))).is_leaf = true ∧
      ((commitNode lr e nid t).getD nid (TreeNode.fresh (-1))).leaf_value = e.weight * lr ∧
      ((commitNode lr e nid t).getD nid (TreeNode.fresh (-1))).split_index
        = (t.getD nid (TreeNode.fresh (-1))).split_index ∧
      ((commitNode lr e nid t).getD nid (TreeNode.fresh (-1))).split_cond
        = (t.getD nid (TreeNode.fresh (-1))).split_cond ∧
      ∀ m, m ≠ nid →
        (commitNode lr e nid t).getD m (TreeNode.fresh (-1))
          = t.getD m (TreeNode.fresh (-1))) := by
  constructor
  · intro h
    have hnot : ¬ e.best.loss_chg ≤ rtEps := not_le.mpr h
    have hlen : (t.set nid { (t.getD nid (TreeNode.fresh (-1))) with
        cleft := (t.length : ℤ), cright := (t.length : ℤ) + 1, is_leaf := false }).length
        = t.length := by simp
    have hn1 : nid < (t.set nid { (t.getD nid (TreeNode.fresh (-1))) with
        cleft := (t.length : ℤ), cright := (t.length : ℤ) + 1, is_leaf := false }).length := by
      simpa [hlen] using hn
    simp only [commitNode, if_pos h, addChilds, setSplitAt, setLeafAt]
    refine ⟨by simp, ?_⟩
    have hnid_lt_app : nid < ((t.set nid { (t.getD nid (TreeNode.fresh (-1))) with
        cleft := (t.length : ℤ), cright := (t.length : ℤ) + 1, is_leaf := false })
        ++ [TreeNode.fresh (nid : ℤ), TreeNode.fresh (nid : ℤ)]).length := by
      simp; omega
    have hone : ((t.set nid { (t.getD nid (TreeNode.fresh (-1))) with
        cleft := (t.length : ℤ), cright := (t.length : ℤ) + 1, is_leaf := false })
        ++ [TreeNode.fresh (nid : ℤ), TreeNode.fresh (nid : ℤ)]).getD nid (TreeNode.fresh (-1))
        = { (t.getD nid (TreeNode.fresh (-1))) with
            cleft := (t.length : ℤ), cright := (t.length : ℤ) + 1, is_leaf := false } := by
      rw [getD_append_left _ _ _ _ (by simpa [hlen] using hn), getD_set_self _ _ _ _ hn]
    constructor
    · rw [getD_set_ne _ _ _ _ _ (by omega), getD_set_ne _ _ _ _ _ (by omega),
        getD_set_self _ _ _ _ (by simpa using hnid_lt_app), hone]
    constructor
    · rw [getD_set_ne _ _ _ _ _ (by omega), getD_set_ne _ _ _ _ _ (by omega),
        getD_set_self _ _ _ _ (by simpa using hnid_lt_app), hone]
    constructor
    · rw [getD_set_ne _ _ _ _ _ (by omega), getD_set_ne _ _ _ _ _ (by omega),
        getD_set_self _ _ _ _ (by simpa using hnid_lt_app), hone]
    constructor
    · rw [getD_set_ne _ _ _ _ _ (by omega), getD_set_ne _ _ _ _ _ (by omega),
        getD_set_self _ _ _ _ (by simpa using hnid_lt_app), hone]
    constructor
    · rw [getD_set_ne _ _ _ _ _ (by omega), getD_set_ne _ _ _ _ _ (by omega),
        getD_set_self _ _ _ _ (by simpa using hnid_lt_app), hone]
    constructor
    · rw [getD_set_ne _ _ _ _ _ (by omega), getD_set_ne _ _ _ _ _ (by omega),
        getD_set_self _ _ _ _ (by simpa using hnid_lt_app), hone]
    constructor
    · rw [getD_set_ne _ _ _ _ _ (by omega),
        getD_set_self _ _ _ _ (by
          simp only [List.length_set, List.length_append, List.length_cons,
            List.length_nil]
          omega)]
    · rw [getD_set_self _ _ _ _ (by
        simp only [List.length_set, List.length_append, List.length_cons,
          List.length_nil]
        omega)]
  · intro h
    have hnot : ¬ rtEps < e.best.loss_chg := not_lt.mpr h
    simp only [commitNode, if_neg hnot, setLeafAt]
    refine ⟨by simp, ?_, ?_, ?_, ?_, ?_⟩
    · rw [getD_set_self _ _ _ _ hn]
    · rw [getD_set_self _ _ _ _ hn]
    · rw [getD_set_self _ _ _ _ hn]
    · rw [getD_set_self _ _ _ _ hn]
    · intro m hm
      rw [getD_set_ne _ _ _ _ _ hm]

/-- Witness for C9: a single-root tree, committed once with a winning best and
once with a zero-gain best. -/
theorem C9_commit_witness :
    ((commitNode (1/2) ⟨⟨1, 2⟩, 0, 6, ⟨5, 3, 7, true⟩⟩ 0 [TreeNode.fresh (-1)]).length = 3 ∧
      ((commitNode (1/2) ⟨⟨1, 2⟩, 0, 6, ⟨5, 3, 7, true⟩⟩ 0
        [TreeNode.fresh (-1)]).getD 0 (TreeNode.fresh (-1))).split_index = 3) ∧
    ((commitNode (1/2) ⟨⟨1, 2⟩, 0, 6, ⟨0, 3, 7, true⟩⟩ 0 [TreeNode.fresh (-1)]).length = 1 ∧
      ((commitNode (1/2) ⟨⟨1, 2⟩, 0, 6, ⟨0, 3, 7, true⟩⟩ 0
        [TreeNode.fresh (-1)]).getD 0 (TreeNode.fresh (-1))).leaf_value = 3) := by
  have h1 := (C9_commit (1/2) ⟨⟨1, 2⟩, 0, 6, ⟨5, 3, 7, true⟩⟩ 0 [TreeNode.fresh (-1)]
    (by simp)).1 (by norm_num [rtEps])
  have h2 := (C9_commit (1/2) ⟨⟨1, 2⟩, 0, 6, ⟨0, 3, 7, true⟩⟩ 0 [TreeNode.fresh (-1)]
    (by simp)).2 (by norm_num [rtEps])
  exact ⟨⟨h1.1, h1.2.1⟩, ⟨h2.1, by rw [h2.2.2.1]; norm_num⟩⟩

/-- C10: `SetEncodePosition` preserves the excluded/eligible status of an
instance — excluded instances receive the complemented id (staying negative
while decoding to the new node), eligible instances the plain id — and the
`ResetPosition` step flips an eligible instance to excluded only through the
explicit complement on finalized leaves. -/
theorem C10_encode_preserves_exclusion (pos : ℕ → ℤ) (ridx : ℕ) :
    (∀ nid : ℤ, 0 ≤ nid →
      (pos ridx < 0 →
        setEncodePosition pos ridx nid ridx = cneg nid ∧
        setEncodePosition pos ridx nid ridx < 0 ∧
        decodePosition (setEncodePosition pos ridx nid) ridx = nid) ∧
      (0 ≤ pos ridx →
        setEncodePosition pos ridx nid ridx = nid ∧
        0 ≤ setEncodePosition pos ridx nid ridx ∧
        decodePosition (setEncodePosition pos ridx nid) ridx = nid)) ∧
    (∀ tree : List TreeNode,
      (¬ (tree.getD (decodePosition pos ridx).toNat (TreeNode.fresh (-1))).is_leaf →
        0 ≤ (tree.getD (decodePosition pos ridx).toNat (TreeNode.fresh (-1))).cleft ∧
        0 ≤ (tree.getD (decodePosition pos ridx).toNat (TreeNode.fresh (-1))).cright) →
      (pos ridx < 0 → resetPositionStep tree pos ridx ridx < 0) ∧
      (0 ≤ pos ridx → resetPositionStep tree pos ridx ridx < 0 →
        (tree.getD (decodePosition pos ridx).toNat (TreeNode.fresh (-1))).is_leaf ∧
        (tree.getD (decodePosition pos ridx).toNat (TreeNode.fresh (-1))).cright = -1)) := by
  constructor
  · intro nid hnid
    constructor
    · intro hneg
      have h1 : setEncodePosition pos ridx nid ridx = cneg nid := by
        simp [setEncodePosition, hneg]
      refine ⟨h1, ?_, ?_⟩
      · rw [h1]; simp only [cneg]; omega
      · simp only [decodePosition, h1]
        rw [if_pos (by simp only [cneg]; omega)]
        simp only [cneg]; omega
    · intro hpos
      have hneg : ¬ pos ridx < 0 := not_lt.mpr hpos
      have h1 : setEncodePosition pos ridx nid ridx = nid := by
        simp [setEncodePosition, hneg]
      refine ⟨h1, by rw [h1]; exact hnid, ?_⟩
      simp only [decodePosition, h1]
      rw [if_neg (not_lt.mpr hnid)]
  · intro tree hwf
    constructor
    · intro hneg
      simp only [resetPositionStep]
      split
      · split
        · simp only [if_pos rfl, cneg]
          omega
        · exact hneg
      · have hch := hwf (by assumption)
        have h1 : ∀ c : ℤ, setEncodePosition pos ridx c ridx = cneg c := by
          intro c; simp [setEncodePosition, hneg]
        split
        · rw [h1]; simp only [cneg]; omega
        · rw [h1]; simp only [cneg]; omega
    · intro hpos hflip
      have hnlt : ¬ pos ridx < 0 := not_lt.mpr hpos
      have h1 : ∀ c : ℤ, setEncodePosition pos ridx c ridx = c := by
        intro c; simp [setEncodePosition, hnlt]
      by_contra hcon
      rw [Classical.not_and_iff_or_not_not] at hcon
      simp only [resetPositionStep] at hflip
      rcases Classical.em
        (tree.getD (decodePosition pos ridx).toNat (TreeNode.fresh (-1))).is_leaf with hl | hl
      · rw [if_pos hl] at hflip
        rcases Classical.em
          ((tree.getD (decodePosition pos ridx).toNat (TreeNode.fresh (-1))).cright = -1)
          with hr | hr
        · exact (hcon.elim (fun hc => hc hl) (fun hc => hc hr))
        · rw [if_neg hr] at hflip
          omega
      · rw [if_neg hl] at hflip
        have hch := hwf hl
        rcases Classical.em
          (tree.getD (decodePosition pos ridx).toNat (TreeNode.fresh (-1))).default_left
          with hd | hd
        · rw [if_pos hd, h1] at hflip
          omega
        · rw [if_neg hd, h1] at hflip
          omega

/-- Witness for C10: an excluded instance repositioned to node 5, and an
excluded instance pushed through a non-leaf node's default branch. -/
theorem C10_encode_preserves_exclusion_witness :
    (setEncodePosition (fun _ => (-3 : ℤ)) 0 5 0 = -6 ∧
      setEncodePosition (fun _ => (-3 : ℤ)) 0 5 0 < 0 ∧
      decodePosition (setEncodePosition (fun _ => (-3 : ℤ)) 0 5) 0 = 5) ∧
    resetPositionStep [⟨-1, 0, 0, 0, 0, false, false, 0⟩] (fun _ => (-1 : ℤ)) 0 0 < 0 := by
  constructor
  · have h := ((C10_encode_preserves_exclusion (fun _ => (-3 : ℤ)) 0).1 5 (by omega)).1
      (by omega)
    simpa [cneg] using h
  · exact ((C10_encode_preserves_exclusion (fun _ => (-1 : ℤ)) 0).2
      [⟨-1, 0, 0, 0, 0, false, false, 0⟩]
      (fun _ => by constructor <;> decide)).1 (by omega)

theorem GradStats.sub_zero (a : GradStats) : a.sub GradStats.zero = a := by
  cases a; simp [GradStats.sub, GradStats.zero]

theorem GradStats.addPair_add (a s : GradStats) (g : GradientPair) :
    (a.addPair g).add s = a.add (s.addPair g) := by
  cases a; cases s; simp [GradStats.add, GradStats.addPair]; constructor <;> ring

theorem GradStats.subPair_sub (a s : GradStats) (g : GradientPair) :
    (a.subPair g).sub s = a.sub (s.addPair g) := by
  cases a; cases s; simp [GradStats.sub, GradStats.subPair, GradStats.addPair]
  constructor <;> ring

-- The recursive drain of `data_unc_right` computed in closed form:
-- drop the longest prefix below `eta`, moving its summed gradient pairs.
theorem drainUR_spec (gp : ℕ → GradientPair) (eta : ℚ) :
    ∀ (q : List Entry) (sl sur : GradStats),
      drainUR gp eta q sl sur =
        (q.dropWhile (fun en => decide (en.fvalue < eta)),
         sl.add (gsSum gp (q.takeWhile (fun en => decide (en.fvalue < eta)))),
         sur.sub (gsSum gp (q.takeWhile (fun en => decide (en.fvalue < eta))))) := by
  intro q
  induction q with
  | nil =>
    intro sl sur
    simp [drainUR, gsSum, GradStats.add_zero, GradStats.sub_zero]
  | cons en rest ih =>
    intro sl sur
    by_cases h : en.fvalue < eta
    · rw [drainUR, if_pos h]
      rw [ih]
      simp [List.dropWhile_cons, List.takeWhile_cons, h, gsSum,
        GradStats.addPair_add, GradStats.subPair_sub]
    · rw [drainUR, if_neg h]
      simp only [List.dropWhile_cons, List.takeWhile_cons, decide_eq_false h]
      simp [gsSum, GradStats.add_zero, GradStats.sub_zero]

-- The recursive drain of `data_unc` in closed form.
theorem drainU_spec (gp : ℕ → GradientPair) (lim : ℚ) :
    ∀ (q : List Entry) (scl : GradStats) (cnt : ℕ) (su : GradStats),
      drainU gp lim q scl cnt su =
        (q.dropWhile (fun en => decide (en.fvalue < lim)),
         scl.add (gsSum gp (q.takeWhile (fun en => decide (en.fvalue < lim)))),
         cnt + (q.takeWhile (fun en => decide (en.fvalue < lim))).length,
         su.sub (gsSum gp (q.takeWhile (fun en => decide (en.fvalue < lim))))) := by
  intro q
  induction q with
  | nil =>
    intro scl cnt su
    simp [drainU, gsSum, GradStats.add_zero, GradStats.sub_zero]
  | cons en rest ih =>
    intro scl cnt su
    by_cases h : en.fvalue < lim
    · rw [drainU, if_pos h]
      rw [ih]
      simp [List.dropWhile_cons, List.takeWhile_cons, h, gsSum,
        GradStats.addPair_add, GradStats.subPair_sub, List.length_cons]
      omega
    · rw [drainU, if_neg h]
      simp only [List.dropWhile_cons, List.takeWhile_cons, decide_eq_false h]
      simp [gsSum, GradStats.add_zero, GradStats.sub_zero]

/-- C3: at every non-first sweep entry with `eta = fvalue - eps`, the step
first drains `data_unc_right` of its prefix below `eta` (each popped pair
added to `stats_left`, subtracted from `stats_unc_right`), then drains
`data_unc` of its prefix below `eta - eps` (each popped pair added to
`stats_c_left`, counted in `c_left_counter`, subtracted from `stats_unc`),
before evaluating and absorbing. -/
theorem C3_drain_transfer (ctx : EnumCtx) (nid : ℕ) (e : ThreadEntry) (en : Entry)
    (h : ¬ e.stats.isEmpty) :
    enumStep ctx nid e en =
      absorbEntry ctx en
        (robustEval ctx nid (en.fvalue - ctx.eps) en.fvalue
          (robustDrain ctx (en.fvalue - ctx.eps) e)) ∧
    (robustDrain ctx (en.fvalue - ctx.eps) e).data_unc_right =
      e.data_unc_right.dropWhile (fun x => decide (x.fvalue < en.fvalue - ctx.eps)) ∧
    (robustDrain ctx (en.fvalue - ctx.eps) e).stats_left =
      e.stats_left.add (gsSum ctx.gpair
        (e.data_unc_right.takeWhile (fun x => decide (x.fvalue < en.fvalue - ctx.eps)))) ∧
    (robustDrain ctx (en.fvalue - ctx.eps) e).stats_unc_right =
      e.stats_unc_right.sub (gsSum ctx.gpair
        (e.data_unc_right.takeWhile (fun x => decide (x.fvalue < en.fvalue - ctx.eps)))) ∧
    (robustDrain ctx (en.fvalue - ctx.eps) e).data_unc =
      e.data_unc.dropWhile (fun x => decide (x.fvalue < en.fvalue - ctx.eps - ctx.eps)) ∧
    (robustDrain ctx (en.fvalue - ctx.eps) e).stats_c_left =
      e.stats_c_left.add (gsSum ctx.gpair
        (e.data_unc.takeWhile (fun x => decide (x.fvalue < en.fvalue - ctx.eps - ctx.eps)))) ∧
    (robustDrain ctx (en.fvalue - ctx.eps) e).c_left_counter =
      e.c_left_counter +
        (e.data_unc.takeWhile (fun x => decide (x.fvalue < en.fvalue - ctx.eps - ctx.eps))).length ∧
    (robustDrain ctx (en.fvalue - ctx.eps) e).stats_unc =
      e.stats_unc.sub (gsSum ctx.gpair
        (e.data_unc.takeWhile (fun x => decide (x.fvalue < en.fvalue - ctx.eps - ctx.eps)))) ∧
    (robustDrain ctx (en.fvalue - ctx.eps) e).stats = e.stats ∧
    (robustDrain ctx (en.fvalue - ctx.eps) e).best = e.best ∧
    (robustDrain ctx (en.fvalue - ctx.eps) e).last_fvalue = e.last_fvalue := by
  refine ⟨by simp only [enumStep, if_neg h], ?_⟩
  simp only [robustDrain, drainUR_spec, drainU_spec]
  simp

-- Evaluation of the sample scan: the state after one entry of `colC`.
theorem preA_eval :
    preA = ⟨⟨1, 1⟩, GradStats.zero, GradStats.zero, 0, ⟨1, 1⟩, ⟨1, 1⟩,
      [⟨0, 0⟩], [⟨0, 0⟩], 0, SplitEntry.init⟩ := by
  norm_num [preA, enumSweep, enumSweepStep, enumStep, absorbEntry, resetTemp,
    clearEntry, blankTE, ctxC, gpW, GradStats.isEmpty, GradStats.zero,
    GradStats.addPair, SplitEntry.init]

-- The drains at the second entry move nothing (`eta = -1/5` is below the
-- queued value 0).
theorem sdA_eval :
    sdA = ⟨⟨1, 1⟩, GradStats.zero, GradStats.zero, 0, ⟨1, 1⟩, ⟨1, 1⟩,
      [⟨0, 0⟩], [⟨0, 0⟩], 0, SplitEntry.init⟩ := by
  rw [sdA, preA_eval]
  norm_num [robustDrain, drainUR, drainU, ctxC]

-- The four candidate losses at the second entry of the sample scan.
theorem sdA_losses :
    nominalLoss ctxC 0 sdA = 13 / 5 ∧ putLeftLoss ctxC 0 sdA = 8 ∧
    putRightLoss ctxC 0 sdA = 13 / 5 ∧ swapLoss ctxC 0 sdA = 8 := by
  rw [nominalLoss, putLeftLoss, putRightLoss, swapLoss, sdA_eval]
  norm_num [scoreDir, ctxC, scoreW, GradStats.sub, GradStats.setUnion,
    GradStats.add, GradStats.zero]

-- Evaluation of the sample scan: the state after two entries of `colC`.
theorem preC_eval :
    preC = ⟨⟨-3, 3 / 2⟩, GradStats.zero, GradStats.zero, 0, ⟨-3, 3 / 2⟩,
      ⟨-3, 3 / 2⟩, [⟨0, 0⟩, ⟨1, 1⟩], [⟨0, 0⟩, ⟨1, 1⟩], 1,
      ⟨13 / 5, 0, -(1 / 5), false⟩⟩ := by
  have h1 : preC = enumStep ctxC 0 preA ⟨1, 1⟩ := by
    rw [preC, preA, enumSweep, enumSweep]
    simp only [List.foldl]
    norm_num [enumSweepStep, ctxC]
  rw [h1, preA_eval]
  rw [enumStep]
  rw [if_neg (by norm_num [GradStats.isEmpty])]
  have hd : robustDrain ctxC ((1 : ℚ) - ctxC.eps)
      (⟨⟨1, 1⟩, GradStats.zero, GradStats.zero, 0, ⟨1, 1⟩, ⟨1, 1⟩,
        [⟨0, 0⟩], [⟨0, 0⟩], 0, SplitEntry.init⟩ : ThreadEntry) =
      ⟨⟨1, 1⟩, GradStats.zero, GradStats.zero, 0, ⟨1, 1⟩, ⟨1, 1⟩,
        [⟨0, 0⟩], [⟨0, 0⟩], 0, SplitEntry.init⟩ := by
    norm_num [robustDrain, drainUR, drainU, ctxC]
  have heq : ((⟨1, 1⟩ : Entry).fvalue - ctxC.eps) = ((1 : ℚ) - ctxC.eps) := rfl
  rw [heq, hd]
  have he : robustEval ctxC 0 ((1 : ℚ) - ctxC.eps) (⟨1, 1⟩ : Entry).fvalue
      (⟨⟨1, 1⟩, GradStats.zero, GradStats.zero, 0, ⟨1, 1⟩, ⟨1, 1⟩,
        [⟨0, 0⟩], [⟨0, 0⟩], 0, SplitEntry.init⟩ : ThreadEntry) =
      ⟨⟨1, 1⟩, GradStats.zero, GradStats.zero, 0, ⟨1, 1⟩, ⟨1, 1⟩,
        [⟨0, 0⟩], [⟨0, 0⟩], 0, ⟨13 / 5, 0, -(1 / 5), false⟩⟩ := by
    rw [robustEval]
    rw [if_pos (by constructor <;> norm_num [ctxC])]
    rw [if_pos (by norm_num [ctxC, GradStats.sub, GradStats.zero])]
    norm_num [nominalLoss, putLeftLoss, putRightLoss, swapLoss, scoreDir, ctxC,
      scoreW, GradStats.sub, GradStats.setUnion, GradStats.add, GradStats.zero,
      SplitEntry.update, SplitEntry.needReplace, SplitEntry.init]
  rw [he]
  norm_num [absorbEntry, ctxC, gpW, GradStats.addPair]

/-- C2 counterexample: at the second entry of the sample column the stored
candidate's `loss_chg` (13/5) is exactly the loss of the two partitions whose
left side has `sum_hess` 0 < `min_child_weight` = 1, and differs from the loss
(8) of both partitions whose two sides meet `min_child_weight` — so a
weight-violating candidate does contribute the minimum, contradicting the
claim. -/
theorem C2_counterexample :
    preC.best.loss_chg = 13 / 5 ∧
    nominalLoss ctxC 0 sdA = 13 / 5 ∧
    sdA.stats_left.sum_hess < ctxC.min_child_weight ∧
    putRightLoss ctxC 0 sdA = 13 / 5 ∧
    sdA.stats_c_left.sum_hess < ctxC.min_child_weight ∧
    putLeftLoss ctxC 0 sdA = 8 ∧
    ctxC.min_child_weight ≤ (sdA.stats_c_left.setUnion sdA.stats_unc).sum_hess ∧
    ctxC.min_child_weight ≤
      ((ctxC.snodeStats 0).sub (sdA.stats_c_left.setUnion sdA.stats_unc)).sum_hess ∧
    swapLoss ctxC 0 sdA = 8 ∧
    ctxC.min_child_weight ≤ (sdA.stats_c_left.setUnion sdA.stats_unc_right).sum_hess ∧
    ctxC.min_child_weight ≤
      ((ctxC.snodeStats 0).sub (sdA.stats_c_left.setUnion sdA.stats_unc_right)).sum_hess ∧
    preC.best.loss_chg ≠ putLeftLoss ctxC 0 sdA ∧
    preC.best.loss_chg ≠ swapLoss ctxC 0 sdA := by
  have hl := sdA_losses
  rw [preC_eval]
  refine ⟨by norm_num, hl.1, ?_, hl.2.2.1, ?_, hl.2.1, ?_, ?_, hl.2.2.2, ?_, ?_,
    by rw [hl.2.1]; norm_num, by rw [hl.2.2.2]; norm_num⟩ <;>
    rw [sdA_eval] <;>
      norm_num [ctxC, GradStats.setUnion, GradStats.add, GradStats.sub,
        GradStats.zero]

/-- Witness for C3: the third entry of the sample column `colC`. -/
theorem C3_drain_transfer_witness :
    enumStep ctxC 0 preC ⟨2, 2⟩ =
      absorbEntry ctxC ⟨2, 2⟩
        (robustEval ctxC 0 ((2 : ℚ) - ctxC.eps) 2
          (robustDrain ctxC ((2 : ℚ) - ctxC.eps) preC)) ∧
    (robustDrain ctxC ((2 : ℚ) - ctxC.eps) preC).data_unc_right =
      preC.data_unc_right.dropWhile (fun x => decide (x.fvalue < (2 : ℚ) - ctxC.eps)) ∧
    (robustDrain ctxC ((2 : ℚ) - ctxC.eps) preC).c_left_counter =
      preC.c_left_counter +
        (preC.data_unc.takeWhile
          (fun x => decide (x.fvalue < (2 : ℚ) - ctxC.eps - ctxC.eps))).length := by
  have h := C3_drain_transfer ctxC 0 preC ⟨2, 2⟩
    (by rw [preC_eval]; norm_num [GradStats.isEmpty])
  exact ⟨h.1, h.2.1, h.2.2.2.2.2.2.1⟩

-- `if b < a then b else a` is `min a b`.
theorem ite_lt_min (a b : ℚ) : (if b < a then b else a) = min a b := by
  split_ifs with h
  · exact (min_eq_right h.le).symm
  · exact (min_eq_left (not_lt.mp h)).symm

/-- C2 amended: only the nominal gate (`stats.sum_hess` and the complement of
`stats_left`) controls candidate evaluation; when `data_unc` is nonempty all
four partitions enter the minimum with no `min_child_weight` check on their
own sides. -/
theorem C2_amended_ungated_min (ctx : EnumCtx) (nid : ℕ) (eta fvalue : ℚ)
    (e : ThreadEntry)
    (h1 : fvalue ≠ e.last_fvalue)
    (h2 : ctx.min_child_weight ≤ e.stats.sum_hess)
    (h3 : ctx.min_child_weight ≤ ((ctx.snodeStats nid).sub e.stats_left).sum_hess)
    (h4 : 0 < e.data_unc.length) :
    (robustEval ctx nid eta fvalue e).best =
      e.best.update
        (min (min (min (nominalLoss ctx nid e) (putLeftLoss ctx nid e))
          (putRightLoss ctx nid e)) (swapLoss ctx nid e))
        ctx.fid eta (decide (ctx.d_step = -1)) := by
  rw [robustEval, if_pos ⟨h1, h2⟩, if_pos h3]
  simp only [if_pos h4]
  rw [ite_lt_min, ite_lt_min, ite_lt_min]

/-- Witness for the amended C2, at the second entry of the sample column. -/
theorem C2_amended_ungated_min_witness :
    (robustEval ctxC 0 (-(1 / 5)) 1 sdA).best =
      sdA.best.update
        (min (min (min (nominalLoss ctxC 0 sdA) (putLeftLoss ctxC 0 sdA))
          (putRightLoss ctxC 0 sdA)) (swapLoss ctxC 0 sdA))
        ctxC.fid (-(1 / 5)) (decide (ctxC.d_step = -1)) := by
  refine C2_amended_ungated_min ctxC 0 (-(1 / 5)) 1 sdA ?_ ?_ ?_ ?_ <;>
    rw [sdA_eval] <;> norm_num [ctxC, GradStats.sub, GradStats.zero]

theorem GradStats.zero_add (a : GradStats) : GradStats.zero.add a = a := by
  cases a; simp [GradStats.add, GradStats.zero]

theorem GradStats.addPair_add_left (x y : GradStats) (g : GradientPair) :
    (x.addPair g).add y = (x.add y).addPair g := by
  cases x; cases y; simp [GradStats.add, GradStats.addPair]; constructor <;> ring

theorem GradStats.add_assoc (x y z : GradStats) :
    (x.add y).add z = x.add (y.add z) := by
  cases x; cases y; cases z; simp [GradStats.add]; constructor <;> ring

theorem GradStats.add_sub_cancel_left (x y : GradStats) : (x.add y).sub x = y := by
  cases x; cases y; simp [GradStats.add, GradStats.sub]

theorem GradStats.add_zero_addPair (x : GradStats) (g : GradientPair) :
    x.add (GradStats.zero.addPair g) = x.addPair g := by
  cases x; simp [GradStats.add, GradStats.addPair, GradStats.zero]

theorem gsSum_append (gp : ℕ → GradientPair) (a b : List Entry) :
    gsSum gp (a ++ b) = (gsSum gp a).add (gsSum gp b) := by
  induction a with
  | nil => simp [gsSum, GradStats.zero_add]
  | cons en rest ih =>
    simp only [List.cons_append, gsSum, List.append_eq]
    rw [ih, GradStats.addPair_add_left]

theorem suffix_append_mono {α : Type} {l₁ l₂ : List α} (t : List α) (h : l₁ <:+ l₂) :
    l₁ ++ t <:+ l₂ ++ t := by
  obtain ⟨x, rfl⟩ := h
  exact ⟨x, (List.append_assoc _ _ _).symm⟩

theorem dropWhile_suffix_mono {α : Type} (p q : α → Bool)
    (himp : ∀ x, q x = true → p x = true) :
    ∀ (l₂ l₁ : List α), l₁ <:+ l₂ → l₁.dropWhile p <:+ l₂.dropWhile q := by
  intro l₂
  induction l₂ with
  | nil =>
    intro l₁ h
    rw [List.suffix_nil.mp h]
    simp
  | cons a t ih =>
    intro l₁ h
    by_cases hq : q a = true
    · have hrw : (a :: t).dropWhile q = t.dropWhile q := by
        rw [List.dropWhile_cons, if_pos hq]
      rw [hrw]
      rcases List.suffix_cons_iff.mp h with h' | h'
      · subst h'
        have hrw2 : (a :: t).dropWhile p = t.dropWhile p := by
          rw [List.dropWhile_cons, if_pos (himp a hq)]
        rw [hrw2]
        exact ih t List.suffix_rfl
      · exact ih l₁ h'
    · have hrw : (a :: t).dropWhile q = a :: t := by
        rw [List.dropWhile_cons, if_neg hq]
      rw [hrw]
      exact (List.dropWhile_suffix p).trans h

-- The drains leave `stats`, `last_fvalue` and `best` untouched.
theorem robustDrain_frame (ctx : EnumCtx) (eta : ℚ) (e : ThreadEntry) :
    (robustDrain ctx eta e).stats = e.stats ∧
    (robustDrain ctx eta e).last_fvalue = e.last_fvalue ∧
    (robustDrain ctx eta e).best = e.best :=
  ⟨rfl, rfl, rfl⟩

-- Candidate evaluation only writes `best`.
theorem robustEval_frame (ctx : EnumCtx) (nid : ℕ) (eta fvalue : ℚ) (e : ThreadEntry) :
    (robustEval ctx nid eta fvalue e).stats = e.stats ∧
    (robustEval ctx nid eta fvalue e).stats_left = e.stats_left ∧
    (robustEval ctx nid eta fvalue e).stats_c_left = e.stats_c_left ∧
    (robustEval ctx nid eta fvalue e).c_left_counter = e.c_left_counter ∧
    (robustEval ctx nid eta fvalue e).stats_unc_right = e.stats_unc_right ∧
    (robustEval ctx nid eta fvalue e).stats_unc = e.stats_unc ∧
    (robustEval ctx nid eta fvalue e).data_unc_right = e.data_unc_right ∧
    (robustEval ctx nid eta fvalue e).data_unc = e.data_unc ∧
    (robustEval ctx nid eta fvalue e).last_fvalue = e.last_fvalue := by
  rw [robustEval]
  split_ifs <;> exact ⟨rfl, rfl, rfl, rfl, rfl, rfl, rfl, rfl, rfl⟩

-- Absorption does not touch `best`.
theorem absorbEntry_best (ctx : EnumCtx) (en : Entry) (e : ThreadEntry) :
    (absorbEntry ctx en e).best = e.best := rfl

-- The shared core of the gated evaluation: with the nominal gate passed and a
-- nonempty uncertainty band, `best` is offered the minimum of the four losses.
theorem robustEval_best_min (ctx : EnumCtx) (nid : ℕ) (eta fvalue : ℚ)
    (e : ThreadEntry)
    (h1 : fvalue ≠ e.last_fvalue)
    (h2 : ctx.min_child_weight ≤ e.stats.sum_hess)
    (h3 : ctx.min_child_weight ≤ ((ctx.snodeStats nid).sub e.stats_left).sum_hess)
    (h4 : 0 < e.data_unc.length) :
    (robustEval ctx nid eta fvalue e).best =
      e.best.update
        (min (min (min (nominalLoss ctx nid e) (putLeftLoss ctx nid e))
          (putRightLoss ctx nid e)) (swapLoss ctx nid e))
        ctx.fid eta (decide (ctx.d_step = -1)) := by
  rw [robustEval, if_pos ⟨h1, h2⟩, if_pos h3]
  simp only [if_pos h4]
  rw [ite_lt_min, ite_lt_min, ite_lt_min]

-- The queue invariant holds for a cleared state.
theorem QInv_clearEntry (gp : ℕ → GradientPair) (e : ThreadEntry) :
    QInv gp (clearEntry e) := by
  refine ⟨rfl, rfl, ?_, ?_, List.suffix_rfl⟩ <;>
    simp [clearEntry, gsSum, GradStats.add_zero]

-- The queue invariant survives the drains (for a nonnegative eps).
theorem QInv_robustDrain (ctx : EnumCtx) (eta : ℚ) (e : ThreadEntry)
    (heps : 0 ≤ ctx.eps) (h : QInv ctx.gpair e) :
    QInv ctx.gpair (robustDrain ctx eta e) := by
  obtain ⟨h1, h2, h3, h4, h5⟩ := h
  have hr := drainUR_spec ctx.gpair eta e.data_unc_right e.stats_left e.stats_unc_right
  have hu := drainU_spec ctx.gpair (eta - ctx.eps) e.data_unc e.stats_c_left
    e.c_left_counter e.stats_unc
  have hsum2 : gsSum ctx.gpair e.data_unc_right
      = (gsSum ctx.gpair
          (e.data_unc_right.takeWhile (fun x => decide (x.fvalue < eta)))).add
        (gsSum ctx.gpair
          (e.data_unc_right.dropWhile (fun x => decide (x.fvalue < eta)))) := by
    conv_lhs => rw [(List.takeWhile_append_dropWhile
      (fun x => decide (x.fvalue < eta)) e.data_unc_right).symm]
    rw [gsSum_append]
  have hsum1 : gsSum ctx.gpair e.data_unc
      = (gsSum ctx.gpair
          (e.data_unc.takeWhile (fun x => decide (x.fvalue < eta - ctx.eps)))).add
        (gsSum ctx.gpair
          (e.data_unc.dropWhile (fun x => decide (x.fvalue < eta - ctx.eps)))) := by
    conv_lhs => rw [(List.takeWhile_append_dropWhile
      (fun x => decide (x.fvalue < eta - ctx.eps)) e.data_unc).symm]
    rw [gsSum_append]
  unfold QInv robustDrain
  simp only [hr, hu]
  refine ⟨?_, ?_, ?_, ?_, ?_⟩
  · rw [h1, hsum1, GradStats.add_sub_cancel_left]
  · rw [h2, hsum2, GradStats.add_sub_cancel_left]
  · rw [GradStats.add_assoc, ← hsum2, h3]
  · rw [GradStats.add_assoc, ← hsum1, h4]
  · refine dropWhile_suffix_mono _ _ ?_ _ _ h5
    intro x hx
    simp only [decide_eq_true_eq] at hx ⊢
    linarith

-- The queue invariant survives candidate evaluation.
theorem QInv_robustEval (ctx : EnumCtx) (nid : ℕ) (eta fvalue : ℚ)
    (e : ThreadEntry) (h : QInv ctx.gpair e) :
    QInv ctx.gpair (robustEval ctx nid eta fvalue e) := by
  have hf := robustEval_frame ctx nid eta fvalue e
  exact ⟨by rw [hf.2.2.2.2.2.1, hf.2.2.2.2.2.2.2.1]; exact h.1,
    by rw [hf.2.2.2.2.1, hf.2.2.2.2.2.2.1]; exact h.2.1,
    by rw [hf.2.1, hf.2.2.2.2.2.2.1, hf.1]; exact h.2.2.1,
    by rw [hf.2.2.1, hf.2.2.2.2.2.2.2.1, hf.1]; exact h.2.2.2.1,
    by rw [hf.2.2.2.2.2.2.1, hf.2.2.2.2.2.2.2.1]; exact h.2.2.2.2⟩

-- The queue invariant survives absorption of the current entry.
theorem QInv_absorbEntry (ctx : EnumCtx) (en : Entry) (e : ThreadEntry)
    (h : QInv ctx.gpair e) :
    QInv ctx.gpair (absorbEntry ctx en e) := by
  obtain ⟨h1, h2, h3, h4, h5⟩ := h
  refine ⟨?_, ?_, ?_, ?_, suffix_append_mono [en] h5⟩
  · show e.stats_unc.addPair _ = gsSum ctx.gpair (e.data_unc ++ [en])
    rw [gsSum_append, h1]
    show _ = (gsSum ctx.gpair e.data_unc).add (gsSum ctx.gpair [en])
    show _ = (gsSum ctx.gpair e.data_unc).add (GradStats.zero.addPair _)
    rw [GradStats.add_zero_addPair]
  · show e.stats_unc_right.addPair _ = gsSum ctx.gpair (e.data_unc_right ++ [en])
    rw [gsSum_append, h2]
    show _ = (gsSum ctx.gpair e.data_unc_right).add (GradStats.zero.addPair _)
    rw [GradStats.add_zero_addPair]
  · show e.stats_left.add (gsSum ctx.gpair (e.data_unc_right ++ [en]))
      = e.stats.addPair _
    rw [gsSum_append]
    show e.stats_left.add
      ((gsSum ctx.gpair e.data_unc_right).add (GradStats.zero.addPair _)) = _
    rw [← GradStats.add_assoc, h3, GradStats.add_zero_addPair]
  · show e.stats_c_left.add (gsSum ctx.gpair (e.data_unc ++ [en]))
      = e.stats.addPair _
    rw [gsSum_append]
    show e.stats_c_left.add
      ((gsSum ctx.gpair e.data_unc).add (GradStats.zero.addPair _)) = _
    rw [← GradStats.add_assoc, h4, GradStats.add_zero_addPair]

-- The queue invariant survives a full sweep step.
theorem QInv_enumStep (ctx : EnumCtx) (nid : ℕ) (e : ThreadEntry) (en : Entry)
    (heps : 0 ≤ ctx.eps) (h : QInv ctx.gpair e) :
    QInv ctx.gpair (enumStep ctx nid e en) := by
  rw [enumStep]
  split_ifs
  · exact QInv_absorbEntry ctx en e h
  · exact QInv_absorbEntry ctx en _
      (QInv_robustEval ctx nid _ _ _ (QInv_robustDrain ctx _ e heps h))

-- The queue invariant holds at every state of the sweep.
theorem QInv_enumSweep (ctx : EnumCtx) (nid : ℕ) (heps : 0 ≤ ctx.eps) :
    ∀ (entries : List Entry) (temp : ℕ → ThreadEntry),
      QInv ctx.gpair (temp nid) → QInv ctx.gpair ((enumSweep ctx entries temp) nid) := by
  intro entries
  induction entries with
  | nil => intro temp h; exact h
  | cons en rest ih =>
    intro temp h
    show QInv ctx.gpair ((enumSweep ctx rest (enumSweepStep ctx temp en)) nid)
    refine ih _ ?_
    rw [enumSweepStep]
    split_ifs with hp
    · exact h
    · by_cases hm : nid = (ctx.position en.index).toNat
      · simp only [if_pos hm]
        exact QInv_enumStep ctx _ _ en heps (hm ▸ h)
      · simp only [if_neg hm]
        exact h

-- Evaluation of the drained state at the third entry of the sample column.
theorem sdC_eval :
    sdC = ⟨⟨-3, 3 / 2⟩, ⟨1, 1⟩, GradStats.zero, 0, ⟨-4, 1 / 2⟩, ⟨-3, 3 / 2⟩,
      [⟨1, 1⟩], [⟨0, 0⟩, ⟨1, 1⟩], 1, ⟨13 / 5, 0, -(1 / 5), false⟩⟩ := by
  rw [sdC, preC_eval]
  norm_num [robustDrain, drainUR, drainU, ctxC, gpW, GradStats.addPair,
    GradStats.subPair, GradStats.zero]

/-- C1: in the main sweep, whenever the evaluation gate passes for a non-first
entry (new feature value, `stats.sum_hess` and the complement of the drained
`stats_left` both at least `min_child_weight`), the candidate offered to the
per-(worker,node) `best` carries the minimum of the four candidate losses,
threshold `eta = fvalue - eps`, and `default_left` iff `d_step = -1`. -/
theorem C1_min_of_four_candidates (ctx : EnumCtx) (qexpand : List ℕ)
    (t0 : ℕ → ThreadEntry) (entries : List Entry) (nid : ℕ) (en : Entry)
    (heps : 0 ≤ ctx.eps)
    (hq : nid ∈ qexpand)
    (hfirst : ¬ ((enumSweep ctx entries (resetTemp qexpand t0)) nid).stats.isEmpty)
    (h1 : en.fvalue ≠ ((enumSweep ctx entries (resetTemp qexpand t0)) nid).last_fvalue)
    (h2 : ctx.min_child_weight ≤
      ((enumSweep ctx entries (resetTemp qexpand t0)) nid).stats.sum_hess)
    (h3 : ctx.min_child_weight ≤
      ((ctx.snodeStats nid).sub
        (robustDrain ctx (en.fvalue - ctx.eps)
          ((enumSweep ctx entries (resetTemp qexpand t0)) nid)).stats_left).sum_hess) :
    (enumStep ctx nid ((enumSweep ctx entries (resetTemp qexpand t0)) nid) en).best =
      ((enumSweep ctx entries (resetTemp qexpand t0)) nid).best.update
        (min (min (min
          (nominalLoss ctx nid (robustDrain ctx (en.fvalue - ctx.eps)
            ((enumSweep ctx entries (resetTemp qexpand t0)) nid)))
          (putLeftLoss ctx nid (robustDrain ctx (en.fvalue - ctx.eps)
            ((enumSweep ctx entries (resetTemp qexpand t0)) nid))))
          (putRightLoss ctx nid (robustDrain ctx (en.fvalue - ctx.eps)
            ((enumSweep ctx entries (resetTemp qexpand t0)) nid))))
          (swapLoss ctx nid (robustDrain ctx (en.fvalue - ctx.eps)
            ((enumSweep ctx entries (resetTemp qexpand t0)) nid))))
        ctx.fid (en.fvalue - ctx.eps) (decide (ctx.d_step = -1)) := by
  set s := (enumSweep ctx entries (resetTemp qexpand t0)) nid with hs
  set sd := robustDrain ctx (en.fvalue - ctx.eps) s with hsd
  have hinv0 : QInv ctx.gpair ((resetTemp qexpand t0) nid) := by
    rw [resetTemp]
    simp only [if_pos hq]
    exact QInv_clearEntry ctx.gpair (t0 nid)
  have hinv_s : QInv ctx.gpair s := QInv_enumSweep ctx nid heps entries _ hinv0
  have hinv : QInv ctx.gpair sd := QInv_robustDrain ctx _ s heps hinv_s
  have hfr := robustDrain_frame ctx (en.fvalue - ctx.eps) s
  have h1' : en.fvalue ≠ sd.last_fvalue := by rw [hsd, hfr.2.1]; exact h1
  have h2' : ctx.min_child_weight ≤ sd.stats.sum_hess := by rw [hsd, hfr.1]; exact h2
  rw [enumStep, if_neg hfirst, absorbEntry_best]
  by_cases h4 : 0 < sd.data_unc.length
  · rw [robustEval_best_min ctx nid _ _ sd h1' h2' h3 h4, hfr.2.2]
  · have hnil : sd.data_unc = [] := by
      have : sd.data_unc.length = 0 := by omega
      exact List.length_eq_zero.mp this
    have hnil2 : sd.data_unc_right = [] :=
      List.suffix_nil.mp (hnil ▸ hinv.2.2.2.2)
    have hU : sd.stats_unc = GradStats.zero := by rw [hinv.1, hnil]; rfl
    have hUR : sd.stats_unc_right = GradStats.zero := by rw [hinv.2.1, hnil2]; rfl
    have hL : sd.stats_left = sd.stats := by
      have h := hinv.2.2.1
      rw [hnil2] at h
      simpa [gsSum, GradStats.add_zero] using h
    have hCL : sd.stats_c_left = sd.stats := by
      have h := hinv.2.2.2.1
      rw [hnil] at h
      simpa [gsSum, GradStats.add_zero] using h
    have hPL : putLeftLoss ctx nid sd = nominalLoss ctx nid sd := by
      rw [putLeftLoss, nominalLoss, hU, hCL, hL]
      simp [GradStats.setUnion, GradStats.add_zero]
    have hPR : putRightLoss ctx nid sd = nominalLoss ctx nid sd := by
      rw [putRightLoss, nominalLoss, hCL, hL]
    have hSW : swapLoss ctx nid sd = nominalLoss ctx nid sd := by
      rw [swapLoss, nominalLoss, hUR, hCL, hL]
      simp [GradStats.setUnion, GradStats.add_zero]
    rw [robustEval, if_pos ⟨h1', h2'⟩, if_pos h3]
    simp only [if_neg h4]
    rw [hPL, hPR, hSW, min_self, min_self, min_self, hfr.2.2]

/-- Witness for C1 at the third entry of the sample column. -/
theorem C1_min_of_four_candidates_witness :
    (enumStep ctxC 0
        ((enumSweep ctxC [⟨0, 0⟩, ⟨1, 1⟩] (resetTemp [0] (fun _ => blankTE))) 0)
        ⟨2, 2⟩).best =
      ((enumSweep ctxC [⟨0, 0⟩, ⟨1, 1⟩] (resetTemp [0] (fun _ => blankTE))) 0).best.update
        (min (min (min
          (nominalLoss ctxC 0 (robustDrain ctxC ((⟨2, 2⟩ : Entry).fvalue - ctxC.eps)
            ((enumSweep ctxC [⟨0, 0⟩, ⟨1, 1⟩] (resetTemp [0] (fun _ => blankTE))) 0)))
          (putLeftLoss ctxC 0 (robustDrain ctxC ((⟨2, 2⟩ : Entry).fvalue - ctxC.eps)
            ((enumSweep ctxC [⟨0, 0⟩, ⟨1, 1⟩] (resetTemp [0] (fun _ => blankTE))) 0))))
          (putRightLoss ctxC 0 (robustDrain ctxC ((⟨2, 2⟩ : Entry).fvalue - ctxC.eps)
            ((enumSweep ctxC [⟨0, 0⟩, ⟨1, 1⟩] (resetTemp [0] (fun _ => blankTE))) 0))))
          (swapLoss ctxC 0 (robustDrain ctxC ((⟨2, 2⟩ : Entry).fvalue - ctxC.eps)
            ((enumSweep ctxC [⟨0, 0⟩, ⟨1, 1⟩] (resetTemp [0] (fun _ => blankTE))) 0))))
        ctxC.fid ((⟨2, 2⟩ : Entry).fvalue - ctxC.eps) (decide (ctxC.d_step = -1)) := by
  have hpre : (enumSweep ctxC [⟨0, 0⟩, ⟨1, 1⟩] (resetTemp [0] (fun _ => blankTE))) 0
      = preC := rfl
  have heta : (⟨2, 2⟩ : Entry).fvalue - ctxC.eps = 4 / 5 := by norm_num [ctxC]
  refine C1_min_of_four_candidates ctxC [0] (fun _ => blankTE) [⟨0, 0⟩, ⟨1, 1⟩] 0 ⟨2, 2⟩
    (by norm_num [ctxC]) (by norm_num) ?_ ?_ ?_ ?_
  · rw [hpre, preC_eval]; norm_num [GradStats.isEmpty]
  · rw [hpre, preC_eval]; norm_num
  · rw [hpre, preC_eval]; norm_num [ctxC]
  · rw [hpre, heta]
    have hsd : robustDrain ctxC (4 / 5) preC = sdC := rfl
    rw [hsd, sdC_eval]
    norm_num [ctxC, GradStats.sub]

-- The drains compute `dropWhile` on both queues.
theorem robustDrain_queues (ctx : EnumCtx) (eta : ℚ) (e : ThreadEntry) :
    (robustDrain ctx eta e).data_unc =
      e.data_unc.dropWhile (fun x => decide (x.fvalue < eta - ctx.eps)) ∧
    (robustDrain ctx eta e).data_unc_right =
      e.data_unc_right.dropWhile (fun x => decide (x.fvalue < eta)) := by
  constructor
  · show (drainU ctx.gpair (eta - ctx.eps) e.data_unc e.stats_c_left
      e.c_left_counter e.stats_unc).1 = _
    rw [drainU_spec]
  · show (drainUR ctx.gpair eta e.data_unc_right e.stats_left e.stats_unc_right).1 = _
    rw [drainUR_spec]

-- A sweep step extends each queue at the back by the current entry and pops
-- only at the front: the new queue is a suffix of the old queue plus the entry.
theorem enumStep_queue_suffix (ctx : EnumCtx) (nid : ℕ) (e : ThreadEntry) (en : Entry) :
    (enumStep ctx nid e en).data_unc <:+ e.data_unc ++ [en] ∧
    (enumStep ctx nid e en).data_unc_right <:+ e.data_unc_right ++ [en] := by
  rw [enumStep]
  split_ifs
  · exact ⟨List.suffix_rfl, List.suffix_rfl⟩
  · have hef := robustEval_frame ctx nid (en.fvalue - ctx.eps) en.fvalue
      (robustDrain ctx (en.fvalue - ctx.eps) e)
    have hdq := robustDrain_queues ctx (en.fvalue - ctx.eps) e
    constructor
    · show (robustEval ctx nid (en.fvalue - ctx.eps) en.fvalue
        (robustDrain ctx (en.fvalue - ctx.eps) e)).data_unc ++ [en] <:+ _
      rw [hef.2.2.2.2.2.2.2.1, hdq.1]
      exact suffix_append_mono [en] (List.dropWhile_suffix _)
    · show (robustEval ctx nid (en.fvalue - ctx.eps) en.fvalue
        (robustDrain ctx (en.fvalue - ctx.eps) e)).data_unc_right ++ [en] <:+ _
      rw [hef.2.2.2.2.2.2.1, hdq.2]
      exact suffix_append_mono [en] (List.dropWhile_suffix _)

-- A sweep step preserves the suffix relation between the two queues.
theorem enumStep_preserves_qsuffix (ctx : EnumCtx) (nid : ℕ) (e : ThreadEntry)
    (en : Entry) (heps : 0 ≤ ctx.eps)
    (h : e.data_unc_right <:+ e.data_unc) :
    (enumStep ctx nid e en).data_unc_right <:+ (enumStep ctx nid e en).data_unc := by
  rw [enumStep]
  split_ifs
  · exact suffix_append_mono [en] h
  · have hef := robustEval_frame ctx nid (en.fvalue - ctx.eps) en.fvalue
      (robustDrain ctx (en.fvalue - ctx.eps) e)
    have hdq := robustDrain_queues ctx (en.fvalue - ctx.eps) e
    show (robustEval ctx nid (en.fvalue - ctx.eps) en.fvalue
        (robustDrain ctx (en.fvalue - ctx.eps) e)).data_unc_right ++ [en] <:+
      (robustEval ctx nid (en.fvalue - ctx.eps) en.fvalue
        (robustDrain ctx (en.fvalue - ctx.eps) e)).data_unc ++ [en]
    rw [hef.2.2.2.2.2.2.1, hef.2.2.2.2.2.2.2.1, hdq.1, hdq.2]
    refine suffix_append_mono [en] ?_
    refine dropWhile_suffix_mono _ _ ?_ _ _ h
    intro x hx
    simp only [decide_eq_true_eq] at hx ⊢
    linarith

-- Queue discipline along a whole sweep.
theorem enumSweep_queues (ctx : EnumCtx) (nid : ℕ) (heps : 0 ≤ ctx.eps) :
    ∀ (entries : List Entry) (temp : ℕ → ThreadEntry),
      (temp nid).data_unc_right <:+ (temp nid).data_unc →
      ((enumSweep ctx entries temp) nid).data_unc_right <:+
        ((enumSweep ctx entries temp) nid).data_unc ∧
      ((enumSweep ctx entries temp) nid).data_unc <:+
        (temp nid).data_unc ++ nodeScan ctx nid entries ∧
      ((enumSweep ctx entries temp) nid).data_unc_right <:+
        (temp nid).data_unc_right ++ nodeScan ctx nid entries := by
  intro entries
  induction entries with
  | nil =>
    intro temp h
    refine ⟨h, ?_, ?_⟩ <;> simp [enumSweep, nodeScan]
  | cons en rest ih =>
    intro temp h
    have hstep : (enumSweep ctx (en :: rest) temp) =
        enumSweep ctx rest (enumSweepStep ctx temp en) := rfl
    rw [hstep]
    by_cases hd : ctx.position en.index = (nid : ℤ)
    · have htemp : (enumSweepStep ctx temp en) nid = enumStep ctx nid (temp nid) en := by
        rw [enumSweepStep]
        have hnn : ¬ ctx.position en.index < 0 := by rw [hd]; omega
        simp only [if_neg hnn]
        have ht : (ctx.position en.index).toNat = nid := by rw [hd]; simp
        simp only [ht, eq_self_iff_true, if_true]
      have hns : nodeScan ctx nid (en :: rest) = en :: nodeScan ctx nid rest := by
        rw [nodeScan, List.filter_cons, if_pos (by simp [hd])]
        rfl
      have hq' : ((enumSweepStep ctx temp en) nid).data_unc_right <:+
          ((enumSweepStep ctx temp en) nid).data_unc := by
        rw [htemp]; exact enumStep_preserves_qsuffix ctx nid (temp nid) en heps h
      obtain ⟨i1, i2, i3⟩ := ih (enumSweepStep ctx temp en) hq'
      refine ⟨i1, ?_, ?_⟩
      · refine i2.trans ?_
        rw [htemp, hns]
        have hs := (enumStep_queue_suffix ctx nid (temp nid) en).1
        have := suffix_append_mono (nodeScan ctx nid rest) hs
        rwa [List.append_assoc, List.singleton_append] at this
      · refine i3.trans ?_
        rw [htemp, hns]
        have hs := (enumStep_queue_suffix ctx nid (temp nid) en).2
        have := suffix_append_mono (nodeScan ctx nid rest) hs
        rwa [List.append_assoc, List.singleton_append] at this
    · have htemp : (enumSweepStep ctx temp en) nid = temp nid := by
        rw [enumSweepStep]
        split_ifs with hp
        · rfl
        · have : nid ≠ (ctx.position en.index).toNat := by
            intro hcon
            refine hd ?_
            rw [hcon]
            omega
          simp only [if_neg this]
      have hns : nodeScan ctx nid (en :: rest) = nodeScan ctx nid rest := by
        rw [nodeScan, List.filter_cons, if_neg (by simp [hd])]
        rfl
      obtain ⟨i1, i2, i3⟩ := ih (enumSweepStep ctx temp en) (htemp ▸ h)
      rw [htemp] at i2 i3
      exact ⟨i1, hns ▸ i2, hns ▸ i3⟩

/-- C4: throughout and after the main sweep, each node's `data_unc_right` is a
suffix of its `data_unc`, both are suffixes (in scan order) of the node's
scanned entries, and a step only pops at the front and pushes the current
entry at the back — an entry once popped is never re-inserted. -/
theorem C4_queue_subset_invariant (ctx : EnumCtx) (qexpand : List ℕ)
    (t0 : ℕ → ThreadEntry) (entries : List Entry) (nid : ℕ)
    (heps : 0 ≤ ctx.eps) (hq : nid ∈ qexpand) :
    ((enumSweep ctx entries (resetTemp qexpand t0)) nid).data_unc_right <:+
      ((enumSweep ctx entries (resetTemp qexpand t0)) nid).data_unc ∧
    ((enumSweep ctx entries (resetTemp qexpand t0)) nid).data_unc <:+
      nodeScan ctx nid entries ∧
    ((enumSweep ctx entries (resetTemp qexpand t0)) nid).data_unc_right <:+
      nodeScan ctx nid entries ∧
    (∀ (e : ThreadEntry) (en : Entry),
      (enumStep ctx nid e en).data_unc <:+ e.data_unc ++ [en] ∧
      (enumStep ctx nid e en).data_unc_right <:+ e.data_unc_right ++ [en]) := by
  have hbase : ((resetTemp qexpand t0) nid).data_unc = [] ∧
      ((resetTemp qexpand t0) nid).data_unc_right = [] := by
    rw [resetTemp]
    simp [if_pos hq, clearEntry]
  have h := enumSweep_queues ctx nid heps entries (resetTemp qexpand t0)
    (by rw [hbase.1, hbase.2])
  obtain ⟨i1, i2, i3⟩ := h
  rw [hbase.1] at i2
  rw [hbase.2] at i3
  simp only [List.nil_append] at i2 i3
  exact ⟨i1, i2, i3, fun e en => enumStep_queue_suffix ctx nid e en⟩

/-- Witness for C4 on the sample column. -/
theorem C4_queue_subset_invariant_witness :
    ((enumSweep ctxC colC (resetTemp [0] (fun _ => blankTE))) 0).data_unc_right <:+
      ((enumSweep ctxC colC (resetTemp [0] (fun _ => blankTE))) 0).data_unc ∧
    ((enumSweep ctxC colC (resetTemp [0] (fun _ => blankTE))) 0).data_unc <:+
      nodeScan ctxC 0 colC ∧
    ((enumSweep ctxC colC (resetTemp [0] (fun _ => blankTE))) 0).data_unc_right <:+
      nodeScan ctxC 0 colC ∧
    (∀ (e : ThreadEntry) (en : Entry),
      (enumStep ctxC 0 e en).data_unc <:+ e.data_unc ++ [en] ∧
      (enumStep ctxC 0 e en).data_unc_right <:+ e.data_unc_right ++ [en]) :=
  C4_queue_subset_invariant ctxC [0] (fun _ => blankTE) colC 0
    (by norm_num [ctxC]) (by norm_num)

-- After a node is marked corrected, the midpoint pass never touches it again.
theorem midStep_frozen (ctx : EnumCtx) (nid : ℕ) (s : MidState) (en : Entry)
    (hu : s.updated nid = true) :
    (midStep ctx s en).temp nid = s.temp nid ∧ (midStep ctx s en).updated nid = true := by
  rw [midStep]
  by_cases hp : ctx.position en.index < 0
  · rw [if_pos hp]; exact ⟨rfl, hu⟩
  · rw [if_neg hp]
    by_cases hg : (s.temp (ctx.position en.index).toNat).best.split_index ≠ ctx.fid ∨
        s.updated (ctx.position en.index).toNat = true
    · rw [if_pos hg]; exact ⟨rfl, hu⟩
    · rw [if_neg hg]
      have hne : ¬ nid = (ctx.position en.index).toNat := by
        intro hcon
        exact hg (Or.inr (by rw [← hcon]; exact hu))
      rcases hm : s.lastMap (ctx.position en.index).toNat with _ | prev
      · simp only [hm]
        exact ⟨trivial, hu⟩
      · simp only [hm]
        split_ifs
        · exact ⟨by simp only [if_neg hne], by simp only [if_neg hne]; exact hu⟩
        · exact ⟨rfl, hu⟩

/-- C6: in the midpoint post-pass, an entry at node `n` with the node's best on
this feature, a recorded previous value, the stored threshold inside
`(previous value, entry value]` and the node not yet corrected, replaces the
threshold by the midpoint of the two values (preserving `loss_chg`,
`default_left` and the feature id) and marks the node corrected; a corrected
node is never touched again in the pass. -/
theorem C6_midpoint_move (ctx : EnumCtx) (nid : ℕ) :
    (∀ (s : MidState) (en : Entry) (prev : ℚ),
      ctx.position en.index = (nid : ℤ) →
      (s.temp nid).best.split_index = ctx.fid →
      s.updated nid = false →
      s.lastMap nid = some prev →
      prev < (s.temp nid).best.split_value →
      (s.temp nid).best.split_value ≤ en.fvalue →
      ((midStep ctx s en).temp nid).best.split_value = (en.fvalue + prev) / 2 ∧
      ((midStep ctx s en).temp nid).best.loss_chg = (s.temp nid).best.loss_chg ∧
      ((midStep ctx s en).temp nid).best.default_left = (s.temp nid).best.default_left ∧
      ((midStep ctx s en).temp nid).best.split_index = (s.temp nid).best.split_index ∧
      (midStep ctx s en).updated nid = true) ∧
    (∀ (s : MidState) (l : List Entry),
      s.updated nid = true →
      (l.foldl (midStep ctx) s).temp nid = s.temp nid ∧
      (l.foldl (midStep ctx) s).updated nid = true) := by
  constructor
  · intro s en prev hpos hfid hupd hmap hlo hhi
    rw [midStep]
    have hnn : ¬ ctx.position en.index < 0 := by rw [hpos]; omega
    rw [if_neg hnn]
    have ht : (ctx.position en.index).toNat = nid := by rw [hpos]; simp
    simp only [ht]
    rw [if_neg (by
      simp only [not_or]
      exact ⟨by simp [hfid], by simp [hupd]⟩)]
    simp only [hmap]
    rw [if_pos ⟨hlo, hhi⟩]
    simp only [eq_self_iff_true, if_true]
    exact ⟨rfl, rfl, rfl, rfl, trivial⟩
  · intro s l
    induction l generalizing s with
    | nil => intro hu; exact ⟨rfl, hu⟩
    | cons en rest ih =>
      intro hu
      have hf := midStep_frozen ctx nid s en hu
      have := ih (midStep ctx s en) hf.2
      exact ⟨this.1.trans hf.1, this.2⟩

/-- Witness for C6: a correction at node 0 with previous value 0, threshold
1/3, entry value 1; and a frozen fold over the sample column. -/
theorem C6_midpoint_move_witness :
    (((midStep ctxC
        ⟨fun _ => { blankTE with best := ⟨2, 0, 1 / 3, false⟩ },
          fun _ => some 0, fun _ => false⟩ ⟨5, 1⟩).temp 0).best.split_value
      = ((1 : ℚ) + 0) / 2) ∧
    ((colC.foldl (midStep ctxC)
        ⟨fun _ => sampleTE, fun _ => none, fun _ => true⟩).temp 0 = sampleTE) := by
  constructor
  · exact ((C6_midpoint_move ctxC 0).1
      ⟨fun _ => { blankTE with best := ⟨2, 0, 1 / 3, false⟩ },
        fun _ => some 0, fun _ => false⟩ ⟨5, 1⟩ 0
      (by norm_num [ctxC]) (by norm_num [ctxC, blankTE]) rfl rfl
      (by norm_num [blankTE]) (by norm_num [blankTE])).1
  · exact ((C6_midpoint_move ctxC 0).2
      ⟨fun _ => sampleTE, fun _ => none, fun _ => true⟩ colC rfl).1

-- An already ascending column is left untouched by order normalization.
theorem normalizeCol_sorted (col : List Entry)
    (h : List.Sorted (fun a b : Entry => a.fvalue ≤ b.fvalue) col) :
    normalizeCol col = col := by
  cases hc : col with
  | nil => rfl
  | cons a t =>
    rw [normalizeCol]
    have hmem : (a :: t).getLast (by simp) ∈ a :: t := List.getLast_mem _
    have hs : List.Sorted (fun x y : Entry => x.fvalue ≤ y.fvalue) (a :: t) := hc ▸ h
    rw [List.sorted_cons] at hs
    have hle : a.fvalue ≤ ((a :: t).getLast (by simp)).fvalue := by
      rcases List.mem_cons.mp hmem with hm | hm
      · rw [hm]
      · exact hs.1 _ hm
    simp only [List.head?_cons, List.getLast?_eq_getLast (a :: t) (by simp)]
    rw [if_neg (not_lt.mpr hle)]

-- Dispatch of one sweep step at a fixed node.
theorem enumSweepStep_at (ctx : EnumCtx) (temp : ℕ → ThreadEntry) (en : Entry) (nid : ℕ) :
    (enumSweepStep ctx temp en) nid =
      if ctx.position en.index = (nid : ℤ) then enumStep ctx nid (temp nid) en
      else temp nid := by
  rw [enumSweepStep]
  by_cases hp : ctx.position en.index < 0
  · rw [if_pos hp, if_neg (by intro hcon; rw [hcon] at hp; omega)]
  · rw [if_neg hp]
    by_cases hd : ctx.position en.index = (nid : ℤ)
    · have ht : (ctx.position en.index).toNat = nid := by rw [hd]; simp
      simp only [ht, eq_self_iff_true, if_true, if_pos hd]
    · rw [if_neg hd, if_neg (by
        intro hcon
        exact hd (by rw [hcon]; omega))]

-- Dispatch of one standard sweep step at a fixed node.
theorem stdSweepStep_at (ctx : EnumCtx) (temp : ℕ → ThreadEntry) (en : Entry) (nid : ℕ) :
    (stdSweepStep ctx temp en) nid =
      if ctx.position en.index = (nid : ℤ) then updateEnumeration ctx nid (temp nid) en
      else temp nid := by
  rw [stdSweepStep]
  by_cases hp : ctx.position en.index < 0
  · rw [if_pos hp, if_neg (by intro hcon; rw [hcon] at hp; omega)]
  · rw [if_neg hp]
    by_cases hd : ctx.position en.index = (nid : ℤ)
    · have ht : (ctx.position en.index).toNat = nid := by rw [hd]; simp
      simp only [ht, eq_self_iff_true, if_true, if_pos hd]
    · rw [if_neg hd, if_neg (by
        intro hcon
        exact hd (by rw [hcon]; omega))]

-- The node filter on a cons.
theorem nodeScan_cons (ctx : EnumCtx) (nid : ℕ) (en : Entry) (rest : List Entry) :
    nodeScan ctx nid (en :: rest) =
      if ctx.position en.index = (nid : ℤ) then en :: nodeScan ctx nid rest
      else nodeScan ctx nid rest := by
  rw [nodeScan, List.filter_cons]
  by_cases hd : ctx.position en.index = (nid : ℤ)
  · rw [if_pos (by simp [hd]), if_pos hd]
    rfl
  · rw [if_neg (by simp [hd]), if_neg hd]
    rfl

-- The sweep state of one node is the fold of its own entries.
theorem enumSweep_proj (ctx : EnumCtx) (nid : ℕ) :
    ∀ (entries : List Entry) (temp : ℕ → ThreadEntry),
      (enumSweep ctx entries temp) nid =
        (nodeScan ctx nid entries).foldl (enumStep ctx nid) (temp nid) := by
  intro entries
  induction entries with
  | nil => intro temp; rfl
  | cons en rest ih =>
    intro temp
    show (enumSweep ctx rest (enumSweepStep ctx temp en)) nid = _
    rw [ih, nodeScan_cons, enumSweepStep_at]
    by_cases hd : ctx.position en.index = (nid : ℤ)
    · rw [if_pos hd, if_pos hd, List.foldl_cons]
    · rw [if_neg hd, if_neg hd]

-- The standard sweep state of one node is the fold of its own entries.
theorem stdSweep_proj (ctx : EnumCtx) (nid : ℕ) :
    ∀ (entries : List Entry) (temp : ℕ → ThreadEntry),
      (entries.foldl (stdSweepStep ctx) temp) nid =
        (nodeScan ctx nid entries).foldl (updateEnumeration ctx nid) (temp nid) := by
  intro entries
  induction entries with
  | nil => intro temp; rfl
  | cons en rest ih =>
    intro temp
    rw [List.foldl_cons, ih, nodeScan_cons, stdSweepStep_at]
    by_cases hd : ctx.position en.index = (nid : ℤ)
    · rw [if_pos hd, if_pos hd, List.foldl_cons]
    · rw [if_neg hd, if_neg hd]

-- One midpoint step projected to one node's components.
theorem midStep_at (ctx : EnumCtx) (s : MidState) (en : Entry) (nid : ℕ) :
    ((midStep ctx s en).temp nid, (midStep ctx s en).lastMap nid,
      (midStep ctx s en).updated nid) =
      if ctx.position en.index = (nid : ℤ) then
        midStepN ctx (s.temp nid, s.lastMap nid, s.updated nid) en
      else (s.temp nid, s.lastMap nid, s.updated nid) := by
  rw [midStep, midStepN]
  by_cases hp : ctx.position en.index < 0
  · rw [if_pos hp, if_neg (by intro hcon; rw [hcon] at hp; omega)]
  · rw [if_neg hp]
    by_cases hd : ctx.position en.index = (nid : ℤ)
    · have ht : (ctx.position en.index).toNat = nid := by rw [hd]; simp
      rw [if_pos hd]
      simp only [ht]
      by_cases hg : (s.temp nid).best.split_index ≠ ctx.fid ∨ s.updated nid = true
      · rw [if_pos hg, if_pos hg]
      · rw [if_neg hg, if_neg hg]
        rcases hm : s.lastMap nid with _ | prev
        · simp only [hm, eq_self_iff_true, if_true]
        · simp only [hm]
          by_cases hc : prev < (s.temp nid).best.split_value ∧
              (s.temp nid).best.split_value ≤ en.fvalue
          · rw [if_pos hc, if_pos hc]
            simp only [eq_self_iff_true, if_true]
          · rw [if_neg hc, if_neg hc]
            simp only [eq_self_iff_true, if_true]
    · rw [if_neg hd]
      have hne : ¬ nid = (ctx.position en.index).toNat := by
        intro hcon
        exact hd (by rw [hcon]; omega)
      by_cases hg : (s.temp (ctx.position en.index).toNat).best.split_index ≠ ctx.fid ∨
          s.updated (ctx.position en.index).toNat = true
      · rw [if_pos hg]
      · rw [if_neg hg]
        rcases hm : s.lastMap (ctx.position en.index).toNat with _ | prev
        · simp only [hm, if_neg hne]
        · simp only [hm]
          split_ifs
          · simp only [if_neg hne]
          · simp only [if_neg hne]

-- The midpoint pass projected to one node is the fold of its own entries.
theorem midPass_proj (ctx : EnumCtx) (nid : ℕ) :
    ∀ (entries : List Entry) (s : MidState),
      ((entries.foldl (midStep ctx) s).temp nid,
        (entries.foldl (midStep ctx) s).lastMap nid,
        (entries.foldl (midStep ctx) s).updated nid) =
        (nodeScan ctx nid entries).foldl (midStepN ctx)
          (s.temp nid, s.lastMap nid, s.updated nid) := by
  intro entries
  induction entries with
  | nil => intro s; rfl
  | cons en rest ih =>
    intro s
    rw [List.foldl_cons, ih, nodeScan_cons]
    by_cases hd : ctx.position en.index = (nid : ℤ)
    · rw [if_pos hd, List.foldl_cons]
      have h := midStep_at ctx s en nid
      rw [if_pos hd] at h
      rw [h]
    · rw [if_neg hd]
      have h := midStep_at ctx s en nid
      rw [if_neg hd] at h
      rw [h]

-- Both sweep steps set the last feature value to the current entry's value.
theorem enumStep_last (ctx : EnumCtx) (nid : ℕ) (e : ThreadEntry) (en : Entry) :
    (enumStep ctx nid e en).last_fvalue = en.fvalue := by
  rw [enumStep]; split_ifs <;> rfl

theorem updateEnumeration_last (ctx : EnumCtx) (nid : ℕ) (e : ThreadEntry) (en : Entry) :
    (updateEnumeration ctx nid e en).last_fvalue = en.fvalue := by
  rw [updateEnumeration]; split_ifs <;> rfl

-- `BestRel` only grows with the processed prefix.
theorem BestRel_extend (ctx : EnumCtx) (done l : List Entry) (br bs : SplitEntry)
    (h : BestRel ctx done br bs) : BestRel ctx (done ++ l) br bs := by
  rcases h with h | ⟨h1, h2, h3, h4, h5, pre, a, b, suf, hsplit, hab, hbr, hbs⟩
  · exact Or.inl h
  · refine Or.inr ⟨h1, h2, h3, h4, h5, pre, a, b, suf ++ l, ?_, hab, hbr, hbs⟩
    rw [hsplit]
    simp

-- A corrected node is inert for the per-node midpoint fold.
theorem midFoldN_frozen (ctx : EnumCtx) :
    ∀ (l : List Entry) (s : ThreadEntry × Option ℚ × Bool), s.2.2 = true →
      l.foldl (midStepN ctx) s = s := by
  intro l
  induction l with
  | nil => intro s _; rfl
  | cons en rest ih =>
    intro s hu
    rw [List.foldl_cons, midStepN, if_pos (Or.inr hu)]
    exact ih s hu

-- The midpoint fold can only rewrite the stored threshold: loss, feature id
-- and default direction are preserved.
theorem midStepN_keeps (ctx : EnumCtx) (s : ThreadEntry × Option ℚ × Bool) (en : Entry) :
    (midStepN ctx s en).1.best.loss_chg = s.1.best.loss_chg ∧
    (midStepN ctx s en).1.best.split_index = s.1.best.split_index ∧
    (midStepN ctx s en).1.best.default_left = s.1.best.default_left := by
  rw [midStepN]
  split_ifs
  · exact ⟨rfl, rfl, rfl⟩
  · rcases s.2.1 with _ | prev
    · exact ⟨rfl, rfl, rfl⟩
    · simp only []
      split_ifs
      · exact ⟨rfl, rfl, rfl⟩
      · exact ⟨rfl, rfl, rfl⟩

theorem midFoldN_keeps (ctx : EnumCtx) :
    ∀ (l : List Entry) (s : ThreadEntry × Option ℚ × Bool),
      (l.foldl (midStepN ctx) s).1.best.loss_chg = s.1.best.loss_chg ∧
      (l.foldl (midStepN ctx) s).1.best.split_index = s.1.best.split_index ∧
      (l.foldl (midStepN ctx) s).1.best.default_left = s.1.best.default_left := by
  intro l
  induction l with
  | nil => intro s; exact ⟨rfl, rfl, rfl⟩
  | cons en rest ih =>
    intro s
    rw [List.foldl_cons]
    have h1 := ih (midStepN ctx s en)
    have h2 := midStepN_keeps ctx s en
    exact ⟨h1.1.trans h2.1, h1.2.1.trans h2.2.1, h1.2.2.trans h2.2.2⟩

-- A threshold above every scanned value is never moved.
theorem midFoldN_nofire (ctx : EnumCtx) :
    ∀ (l : List Entry) (e : ThreadEntry) (lm : Option ℚ) (u : Bool),
      (∀ x ∈ l, x.fvalue < e.best.split_value) →
      (l.foldl (midStepN ctx) (e, lm, u)).1 = e := by
  intro l
  induction l with
  | nil => intro e lm u _; rfl
  | cons en rest ih =>
    intro e lm u hlt
    rw [List.foldl_cons, midStepN]
    split_ifs with hg
    · exact ih e lm u (fun x hx => hlt x (List.mem_cons_of_mem en hx))
    · rcases lm with _ | prev
      · exact ih e _ u (fun x hx => hlt x (List.mem_cons_of_mem en hx))
      · simp only []
        rw [if_neg (by
          intro hcon
          exact absurd hcon.2 (not_le.mpr (hlt en (List.mem_cons_self en rest))))]
        exact ih e _ u (fun x hx => hlt x (List.mem_cons_of_mem en hx))

-- The midpoint fold fires exactly at the first entry at or above the stored
-- threshold, replacing it by the midpoint with the preceding value.
theorem midFoldN_fire (ctx : EnumCtx) (e : ThreadEntry) (a b : Entry)
    (hfid : e.best.split_index = ctx.fid)
    (hv : e.best.split_value = b.fvalue)
    (hab : a.fvalue < b.fvalue) :
    ∀ (pre : List Entry) (suf : List Entry) (lm : Option ℚ),
      (∀ x ∈ pre, x.fvalue ≤ a.fvalue) →
      (lm = none ∨ ∃ v, lm = some v ∧ v ≤ a.fvalue) →
      ((pre ++ a :: b :: suf).foldl (midStepN ctx) (e, lm, false)).1 =
        { e with best := e.best.updateSplitValue ((b.fvalue + a.fvalue) / 2) } := by
  intro pre
  induction pre with
  | nil =>
    intro suf lm _ hlm
    rw [List.nil_append, List.foldl_cons]
    have hga : midStepN ctx (e, lm, false) a = (e, some a.fvalue, false) := by
      rw [midStepN]
      rw [if_neg (by
        simp only [not_or]
        exact ⟨by simp [hfid], by simp⟩)]
      rcases hlm with h | ⟨v, hv', hvle⟩
      · rw [h]
      · rw [hv']
        simp only []
        rw [if_neg (by
          intro hcon
          rw [hv] at hcon
          exact absurd (hcon.2.trans_lt hab) (lt_irrefl _))]
    rw [hga, List.foldl_cons]
    have hgb : midStepN ctx (e, some a.fvalue, false) b =
        ({ e with best := e.best.updateSplitValue ((b.fvalue + a.fvalue) / 2) },
          some b.fvalue, true) := by
      rw [midStepN]
      rw [if_neg (by
        simp only [not_or]
        exact ⟨by simp [hfid], by simp⟩)]
      simp only []
      rw [if_pos ⟨by rw [hv]; exact hab, by rw [hv]⟩]
    rw [hgb]
    rw [midFoldN_frozen ctx suf _ rfl]
  | cons p pre' ih =>
    intro suf lm hpre hlm
    rw [List.cons_append, List.foldl_cons]
    have hgp : midStepN ctx (e, lm, false) p = (e, some p.fvalue, false) := by
      rw [midStepN]
      rw [if_neg (by
        simp only [not_or]
        exact ⟨by simp [hfid], by simp⟩)]
      rcases hlm with h | ⟨v, hv', hvle⟩
      · rw [h]
      · rw [hv']
        simp only []
        rw [if_neg (by
          intro hcon
          rw [hv] at hcon
          have hple : p.fvalue ≤ a.fvalue := hpre p (List.mem_cons_self p pre')
          exact absurd ((hcon.2.trans hple).trans_lt hab) (lt_irrefl _))]
    rw [hgp]
    exact ih suf (some p.fvalue)
      (fun x hx => hpre x (List.mem_cons_of_mem p hx))
      (Or.inr ⟨p.fvalue, rfl, hpre p (List.mem_cons_self p pre')⟩)

-- Evaluation is skipped on a repeated feature value.
theorem robustEval_skip (ctx : EnumCtx) (nid : ℕ) (eta fvalue : ℚ) (e : ThreadEntry)
    (h : fvalue = e.last_fvalue) :
    robustEval ctx nid eta fvalue e = e := by
  rw [robustEval, if_neg]
  simp [h]

-- `stats_left` completes the right-uncertainty queue to `stats` through the
-- drains.
theorem comp4_drain (ctx : EnumCtx) (eta : ℚ) (e : ThreadEntry)
    (h : e.stats_left.add (gsSum ctx.gpair e.data_unc_right) = e.stats) :
    (robustDrain ctx eta e).stats_left.add
      (gsSum ctx.gpair (robustDrain ctx eta e).data_unc_right)
      = (robustDrain ctx eta e).stats := by
  have hr := drainUR_spec ctx.gpair eta e.data_unc_right e.stats_left e.stats_unc_right
  have hq : e.data_unc_right =
      e.data_unc_right.takeWhile (fun x => decide (x.fvalue < eta)) ++
        e.data_unc_right.dropWhile (fun x => decide (x.fvalue < eta)) :=
    (List.takeWhile_append_dropWhile _ _).symm
  show ((drainUR ctx.gpair eta e.data_unc_right e.stats_left e.stats_unc_right).2.1).add
    (gsSum ctx.gpair
      (drainUR ctx.gpair eta e.data_unc_right e.stats_left e.stats_unc_right).1) = e.stats
  rw [hr]
  show (e.stats_left.add _).add _ = e.stats
  rw [GradStats.add_assoc, ← gsSum_append, ← hq, h]

-- ... and through absorption of the current entry.
theorem comp4_absorb (ctx : EnumCtx) (en : Entry) (e : ThreadEntry)
    (h : e.stats_left.add (gsSum ctx.gpair e.data_unc_right) = e.stats) :
    (absorbEntry ctx en e).stats_left.add
      (gsSum ctx.gpair (absorbEntry ctx en e).data_unc_right)
      = (absorbEntry ctx en e).stats := by
  show e.stats_left.add (gsSum ctx.gpair (e.data_unc_right ++ [en])) = e.stats.addPair _
  rw [gsSum_append]
  show e.stats_left.add
    ((gsSum ctx.gpair e.data_unc_right).add (GradStats.zero.addPair _)) = _
  rw [← GradStats.add_assoc, h, GradStats.add_zero_addPair]

-- How one pair of simultaneous candidate offers transforms the best relation:
-- the robust threshold is the raw value, the standard one the midpoint with
-- the previous value.
theorem SplitEntry.update_pos (old : SplitEntry) {nl : ℚ} {fi : ℕ} {fv : ℚ} {dl : Bool}
    (h : old.needReplace nl fi fv) : old.update nl fi fv dl = ⟨nl, fi, fv, dl⟩ := by
  rw [SplitEntry.update, if_pos h]

theorem SplitEntry.update_neg (old : SplitEntry) {nl : ℚ} {fi : ℕ} {fv : ℚ} {dl : Bool}
    (h : ¬ old.needReplace nl fi fv) : old.update nl fi fv dl = old := by
  rw [SplitEntry.update, if_neg h]

theorem bestRel_update (ctx : EnumCtx) (done : List Entry) (br bs : SplitEntry)
    (L lastv : ℚ) (en : Entry) (dl : Bool)
    (hR : BestRel ctx done br bs)
    (h7 : ∀ x ∈ done, x.fvalue ≤ lastv)
    (h8 : ∃ dpre dlast, done = dpre ++ [dlast] ∧ dlast.fvalue = lastv)
    (hlt : lastv < en.fvalue) :
    BestRel ctx (done ++ [en])
      (br.update L ctx.fid en.fvalue dl)
      (bs.update L ctx.fid ((en.fvalue + lastv) / 2) dl) := by
  obtain ⟨dpre, dlast, hdd, hdl⟩ := h8
  have hdone_split : done ++ [en] = dpre ++ dlast :: en :: [] := by
    rw [hdd]; simp
  rcases hR with ⟨ha, hb⟩ | ⟨hEq, hPos, hir, his, hdl', pre, a, b, suf, hsp, hab, hbrv, hbsv⟩
  · rcases lt_trichotomy 0 L with hL | hL | hL
    · rw [SplitEntry.update_pos br (show br.needReplace L ctx.fid en.fvalue from
        Or.inl (by rw [ha]; exact hL))]
      rw [SplitEntry.update_pos bs (show bs.needReplace L ctx.fid ((en.fvalue + lastv) / 2)
        from Or.inl (by rw [hb]; exact hL))]
      exact Or.inr ⟨rfl, hL, rfl, rfl, rfl, dpre, dlast, en, [], hdone_split,
        by rw [hdl]; exact hlt, rfl, by rw [hdl]⟩
    · refine Or.inl ⟨?_, ?_⟩ <;> rw [SplitEntry.update] <;> split_ifs <;>
        simp [ha, hb, ← hL]
    · have hbr : ¬ br.needReplace L ctx.fid en.fvalue := by
        intro hrep
        rcases hrep with h | ⟨h1, _⟩
        · rw [ha] at h; linarith
        · rw [ha] at h1; linarith
      have hbs : ¬ bs.needReplace L ctx.fid ((en.fvalue + lastv) / 2) := by
        intro hrep
        rcases hrep with h | ⟨h1, _⟩
        · rw [hb] at h; linarith
        · rw [hb] at h1; linarith
      rw [SplitEntry.update_neg br hbr, SplitEntry.update_neg bs hbs]
      exact Or.inl ⟨ha, hb⟩
  · have hbmem : b ∈ done := by rw [hsp]; simp
    have hamem : a ∈ done := by rw [hsp]; simp
    have hbval : br.split_value ≤ lastv := by rw [hbrv]; exact h7 b hbmem
    have haval : a.fvalue ≤ lastv := h7 a hamem
    have hbfv : b.fvalue ≤ lastv := hbrv ▸ hbval
    have hbsval : bs.split_value < (en.fvalue + lastv) / 2 := by
      rw [hbsv]
      nlinarith [hab]
    rcases lt_trichotomy br.loss_chg L with hL | hL | hL
    · rw [SplitEntry.update_pos br (show br.needReplace L ctx.fid en.fvalue from
        Or.inl hL)]
      rw [SplitEntry.update_pos bs (show bs.needReplace L ctx.fid ((en.fvalue + lastv) / 2)
        from Or.inl (by rw [← hEq]; exact hL))]
      exact Or.inr ⟨rfl, lt_trans hPos hL, rfl, rfl, rfl, dpre, dlast, en, [],
        hdone_split, by rw [hdl]; exact hlt, rfl, by rw [hdl]⟩
    · have hbr : ¬ br.needReplace L ctx.fid en.fvalue := by
        intro hrep
        rcases hrep with h | ⟨h1, h2⟩
        · rw [hL] at h; linarith
        · rcases h2 with h2 | ⟨_, h3⟩
          · rw [hir] at h2; exact absurd h2 (lt_irrefl _)
          · have : br.split_value < en.fvalue := lt_of_le_of_lt hbval hlt
            linarith
      have hbs : ¬ bs.needReplace L ctx.fid ((en.fvalue + lastv) / 2) := by
        intro hrep
        rcases hrep with h | ⟨h1, h2⟩
        · rw [← hEq, hL] at h; linarith
        · rcases h2 with h2 | ⟨_, h3⟩
          · rw [his] at h2; exact absurd h2 (lt_irrefl _)
          · linarith
      rw [SplitEntry.update_neg br hbr, SplitEntry.update_neg bs hbs]
      exact Or.inr ⟨hEq, hPos, hir, his, hdl', pre, a, b, suf ++ [en],
        by rw [hsp]; simp, hab, hbrv, hbsv⟩
    · have hbr : ¬ br.needReplace L ctx.fid en.fvalue := by
        intro hrep
        rcases hrep with h | ⟨h1, _⟩
        · linarith
        · linarith
      have hbs : ¬ bs.needReplace L ctx.fid ((en.fvalue + lastv) / 2) := by
        intro hrep
        rcases hrep with h | ⟨h1, _⟩
        · rw [← hEq] at h; linarith
        · rw [← hEq] at h1; linarith
      rw [SplitEntry.update_neg br hbr, SplitEntry.update_neg bs hbs]
      exact Or.inr ⟨hEq, hPos, hir, his, hdl', pre, a, b, suf ++ [en],
        by rw [hsp]; simp, hab, hbrv, hbsv⟩

-- Field equations of absorption.
theorem absorbEntry_parts (ctx : EnumCtx) (en : Entry) (e : ThreadEntry) :
    (absorbEntry ctx en e).stats = e.stats.addPair (ctx.gpair en.index) ∧
    (absorbEntry ctx en e).last_fvalue = en.fvalue ∧
    (absorbEntry ctx en e).data_unc = e.data_unc ++ [en] ∧
    (absorbEntry ctx en e).data_unc_right = e.data_unc_right ++ [en] ∧
    (absorbEntry ctx en e).stats_left = e.stats_left ∧
    (absorbEntry ctx en e).stats_c_left = e.stats_c_left ∧
    (absorbEntry ctx en e).best = e.best :=
  ⟨rfl, rfl, rfl, rfl, rfl, rfl, rfl⟩

-- Field equations of a non-first standard step.
theorem updateEnumeration_parts (ctx : EnumCtx) (nid : ℕ) (e : ThreadEntry) (en : Entry)
    (h : ¬ e.stats.isEmpty) :
    (updateEnumeration ctx nid e en).stats = e.stats.addPair (ctx.gpair en.index) ∧
    (updateEnumeration ctx nid e en).last_fvalue = en.fvalue := by
  rw [updateEnumeration, if_neg h]
  dsimp only
  split_ifs <;> exact ⟨rfl, rfl⟩

-- The per-entry simulation between the robust sweep at `eps = 0` and the
-- standard sweep.
theorem c8_step_rel (ctx : EnumCtx) (nid : ℕ) (heps : ctx.eps = 0)
    (done : List Entry) (er es_ : ThreadEntry) (en : Entry)
    (hR : SweepRel ctx done er es_)
    (hge : done ≠ [] → er.last_fvalue ≤ en.fvalue) :
    SweepRel ctx (done ++ [en]) (enumStep ctx nid er en)
      (updateEnumeration ctx nid es_ en) := by
  obtain ⟨r1, r2, r3, r4, r5, r6, r7, r8, r9⟩ := hR
  by_cases hemp : er.stats.isEmpty
  · have hemp' : es_.stats.isEmpty := by
      rw [GradStats.isEmpty, ← r1]; exact hemp
    rw [enumStep, if_pos hemp, updateEnumeration, if_pos hemp']
    have hab := absorbEntry_parts ctx en er
    refine ⟨?_, ?_, ?_, ?_, ?_, ?_, ?_, ?_, ?_⟩
    · rw [hab.1, r1]
    · rw [hab.2.1]
    · rw [hab.2.2.1, hab.2.2.2.1, r3]
    · rw [hab.2.2.2.2.1, hab.2.2.2.1, hab.1, gsSum_append]
      have hone : gsSum ctx.gpair [en] = GradStats.zero.addPair (ctx.gpair en.index) := rfl
      rw [hone, ← GradStats.add_assoc, r4, GradStats.add_zero_addPair]
    · intro x hx
      rw [hab.2.2.1] at hx
      rw [hab.2.1]
      rcases List.mem_append.mp hx with hx | hx
      · by_cases hdone : done = []
        · rw [(r6 hdone).2] at hx
          simp at hx
        · exact (r5 x hx).trans (hge hdone)
      · rw [List.mem_singleton.mp hx]
    · intro hcon
      exact absurd hcon (by simp)
    · intro x hx
      rw [hab.2.1]
      rcases List.mem_append.mp hx with hx | hx
      · by_cases hdone : done = []
        · rw [hdone] at hx
          simp at hx
        · exact (r7 x hx).trans (hge hdone)
      · rw [List.mem_singleton.mp hx]
    · intro _
      exact ⟨done, en, rfl, by rw [hab.2.1]⟩
    · rw [hab.2.2.2.2.2.2]
      exact BestRel_extend ctx done [en] _ _ r9
  · have hemp' : ¬ es_.stats.isEmpty := by
      rw [GradStats.isEmpty, ← r1]; exact hemp
    have hdone : done ≠ [] := by
      intro hd
      exact hemp (by rw [GradStats.isEmpty, (r6 hd).1]; rfl)
    have hlastle : er.last_fvalue ≤ en.fvalue := hge hdone
    have heq0 : en.fvalue - ctx.eps = en.fvalue := by rw [heps, sub_zero]
    have heq00 : en.fvalue - ctx.eps - ctx.eps = en.fvalue := by
      rw [heps, sub_zero, sub_zero]
    rw [enumStep, if_neg hemp]
    have hq := robustDrain_queues ctx (en.fvalue - ctx.eps) er
    have hqu : (robustDrain ctx (en.fvalue - ctx.eps) er).data_unc =
        er.data_unc_right.dropWhile (fun x => decide (x.fvalue < en.fvalue)) := by
      rw [hq.1, r3, heq00]
    have hqur : (robustDrain ctx (en.fvalue - ctx.eps) er).data_unc_right =
        er.data_unc_right.dropWhile (fun x => decide (x.fvalue < en.fvalue)) := by
      rw [hq.2, heq0]
    have hfr := robustDrain_frame ctx (en.fvalue - ctx.eps) er
    have hef := robustEval_frame ctx nid (en.fvalue - ctx.eps) en.fvalue
      (robustDrain ctx (en.fvalue - ctx.eps) er)
    have hab := absorbEntry_parts ctx en
      (robustEval ctx nid (en.fvalue - ctx.eps) en.fvalue
        (robustDrain ctx (en.fvalue - ctx.eps) er))
    have hup := updateEnumeration_parts ctx nid es_ en hemp'
    have hc4d := comp4_drain ctx (en.fvalue - ctx.eps) er r4
    have hc4e : (robustEval ctx nid (en.fvalue - ctx.eps) en.fvalue
        (robustDrain ctx (en.fvalue - ctx.eps) er)).stats_left.add
        (gsSum ctx.gpair (robustEval ctx nid (en.fvalue - ctx.eps) en.fvalue
          (robustDrain ctx (en.fvalue - ctx.eps) er)).data_unc_right)
        = (robustEval ctx nid (en.fvalue - ctx.eps) en.fvalue
            (robustDrain ctx (en.fvalue - ctx.eps) er)).stats := by
      rw [hef.2.1, hef.2.2.2.2.2.2.1, hef.1]
      exact hc4d
    refine ⟨?_, ?_, ?_, ?_, ?_, ?_, ?_, ?_, ?_⟩
    · rw [hab.1, hef.1, hfr.1, hup.1, r1]
    · rw [hab.2.1, hup.2]
    · rw [hab.2.2.1, hab.2.2.2.1, hef.2.2.2.2.2.2.1, hef.2.2.2.2.2.2.2.1, hqu, hqur]
    · exact comp4_absorb ctx en _ hc4e
    · intro x hx
      rw [hab.2.2.1, hef.2.2.2.2.2.2.2.1, hqu] at hx
      rw [hab.2.1]
      rcases List.mem_append.mp hx with hx | hx
      · have hx' : x ∈ er.data_unc_right := (List.dropWhile_suffix _).subset hx
        exact (r5 x (by rw [r3]; exact hx')).trans hlastle
      · rw [List.mem_singleton.mp hx]
    · intro hcon
      exact absurd hcon (by simp)
    · intro x hx
      rw [hab.2.1]
      rcases List.mem_append.mp hx with hx | hx
      · exact (r7 x hx).trans hlastle
      · rw [List.mem_singleton.mp hx]
    · intro _
      exact ⟨done, en, rfl, by rw [hab.2.1]⟩
    · rw [hab.2.2.2.2.2.2]
      by_cases hv : en.fvalue = er.last_fvalue
      · rw [robustEval_skip ctx nid _ _ _ (by rw [hfr.2.1]; exact hv), hfr.2.2]
        have hsb : (updateEnumeration ctx nid es_ en).best = es_.best := by
          rw [updateEnumeration, if_neg hemp']
          rw [if_neg (by intro hcon; exact hcon.1 (by rw [← r2]; exact hv))]
        rw [hsb]
        exact BestRel_extend ctx done [en] _ _ r9
      · have hlastlt : er.last_fvalue < en.fvalue :=
          lt_of_le_of_ne hlastle (fun hcc => hv hcc.symm)
        have hall : ∀ x ∈ er.data_unc_right,
            (fun x : Entry => decide (x.fvalue < en.fvalue)) x = true := by
          intro x hx
          simp only [decide_eq_true_eq]
          exact lt_of_le_of_lt (r5 x (by rw [r3]; exact hx)) hlastlt
        have hnil : (robustDrain ctx (en.fvalue - ctx.eps) er).data_unc = [] := by
          rw [hqu, List.dropWhile_eq_nil_iff.mpr]
          exact hall
        have hsl : (robustDrain ctx (en.fvalue - ctx.eps) er).stats_left = er.stats := by
          show (drainUR ctx.gpair (en.fvalue - ctx.eps) er.data_unc_right
            er.stats_left er.stats_unc_right).2.1 = er.stats
          rw [drainUR_spec]
          show er.stats_left.add (gsSum ctx.gpair
            (er.data_unc_right.takeWhile
              (fun x => decide (x.fvalue < en.fvalue - ctx.eps)))) = er.stats
          rw [heq0, List.takeWhile_eq_self_iff.mpr hall, r4]
        by_cases hg1 : ctx.min_child_weight ≤ er.stats.sum_hess
        · by_cases hg2 : ctx.min_child_weight ≤
              ((ctx.snodeStats nid).sub er.stats).sum_hess
          · have hrb : (robustEval ctx nid (en.fvalue - ctx.eps) en.fvalue
                (robustDrain ctx (en.fvalue - ctx.eps) er)).best = er.best.update
                (scoreDir ctx nid er.stats ((ctx.snodeStats nid).sub er.stats))
                ctx.fid (en.fvalue - ctx.eps) (decide (ctx.d_step = -1)) := by
              rw [robustEval]
              rw [if_pos ⟨by rw [hfr.2.1]; exact hv, by rw [hfr.1]; exact hg1⟩]
              rw [if_pos (by rw [hsl]; exact hg2)]
              have hlen : ¬ 0 < (robustDrain ctx (en.fvalue - ctx.eps) er).data_unc.length := by
                rw [hnil]; simp
              simp only [if_neg hlen]
              rw [nominalLoss, hsl, hfr.2.2]
            have hsb : (updateEnumeration ctx nid es_ en).best = es_.best.update
                (scoreDir ctx nid es_.stats ((ctx.snodeStats nid).sub es_.stats))
                ctx.fid ((en.fvalue + es_.last_fvalue) / 2) (decide (ctx.d_step = -1)) := by
              rw [updateEnumeration, if_neg hemp']
              rw [if_pos ⟨by rw [← r2]; exact hv, by rw [← r1]; exact hg1⟩]
              rw [if_pos (by rw [← r1]; exact hg2)]
            rw [hrb, hsb, heq0, ← r1, ← r2]
            exact bestRel_update ctx done er.best es_.best _ er.last_fvalue en _
              r9 r7 (r8 hdone) hlastlt
          · have hrb : (robustEval ctx nid (en.fvalue - ctx.eps) en.fvalue
                (robustDrain ctx (en.fvalue - ctx.eps) er)).best = er.best := by
              rw [robustEval]
              rw [if_pos ⟨by rw [hfr.2.1]; exact hv, by rw [hfr.1]; exact hg1⟩]
              rw [if_neg (by rw [hsl]; exact hg2)]
              exact hfr.2.2
            have hsb : (updateEnumeration ctx nid es_ en).best = es_.best := by
              rw [updateEnumeration, if_neg hemp']
              rw [if_pos ⟨by rw [← r2]; exact hv, by rw [← r1]; exact hg1⟩]
              rw [if_neg (by rw [← r1]; exact hg2)]
            rw [hrb, hsb]
            exact BestRel_extend ctx done [en] _ _ r9
        · have hrb : (robustEval ctx nid (en.fvalue - ctx.eps) en.fvalue
              (robustDrain ctx (en.fvalue - ctx.eps) er)).best = er.best := by
            rw [robustEval]
            rw [if_neg (by intro hcon; exact hg1 (by rw [← hfr.1]; exact hcon.2))]
            exact hfr.2.2
          have hsb : (updateEnumeration ctx nid es_ en).best = es_.best := by
            rw [updateEnumeration, if_neg hemp']
            rw [if_neg (by intro hcon; exact hg1 (by rw [r1]; exact hcon.2))]
          rw [hrb, hsb]
          exact BestRel_extend ctx done [en] _ _ r9

-- The simulation carried along a whole sorted sweep.
theorem c8_sweep_rel (ctx : EnumCtx) (nid : ℕ) (heps : ctx.eps = 0) :
    ∀ (rest done : List Entry) (er es_ : ThreadEntry),
      List.Sorted (fun a b : Entry => a.fvalue ≤ b.fvalue) rest →
      (done ≠ [] → ∀ x ∈ rest, er.last_fvalue ≤ x.fvalue) →
      SweepRel ctx done er es_ →
      SweepRel ctx (done ++ rest) (rest.foldl (enumStep ctx nid) er)
        (rest.foldl (updateEnumeration ctx nid) es_) := by
  intro rest
  induction rest with
  | nil =>
    intro done er es_ _ _ h
    rw [List.append_nil]
    exact h
  | cons en rest' ih =>
    intro done er es_ hsort hge h
    rw [List.foldl_cons, List.foldl_cons]
    have hstep := c8_step_rel ctx nid heps done er es_ en h
      (fun hd => hge hd en (List.mem_cons_self en rest'))
    have hsort' := (List.sorted_cons.mp hsort).2
    have hhead := (List.sorted_cons.mp hsort).1
    have hge' : done ++ [en] ≠ [] →
        ∀ x ∈ rest', (enumStep ctx nid er en).last_fvalue ≤ x.fvalue := by
      intro _ x hx
      rw [enumStep_last]
      exact hhead x hx
    have hfin := ih (done ++ [en]) (enumStep ctx nid er en)
      (updateEnumeration ctx nid es_ en) hsort' hge' hstep
    rwa [List.append_assoc, List.singleton_append] at hfin

-- A best relation with no further candidates is already final.
theorem bestRel_to_finalRel (ctx : EnumCtx) (es : List Entry) (br bs : SplitEntry)
    (h : BestRel ctx es br bs) : FinalRel ctx es br bs := by
  rcases h with h | h
  · exact Or.inl h
  · exact Or.inr (Or.inr h)

-- The closing offers transform the sweep relation into the final relation.
theorem c8_closing_rel (ctx : EnumCtx) (nid : ℕ) (heps : ctx.eps = 0)
    (hd1 : ctx.d_step = 1) (es : List Entry) (er es_ : ThreadEntry)
    (hR : SweepRel ctx es er es_) :
    FinalRel ctx es (closingNode ctx nid er).best (stdClosingNode ctx nid es_).best := by
  obtain ⟨r1, r2, _, _, _, _, r7, _, r9⟩ := hR
  by_cases hg1 : ctx.min_child_weight ≤ er.stats.sum_hess
  · by_cases hg2 : ctx.min_child_weight ≤ ((ctx.snodeStats nid).sub er.stats).sum_hess
    · have hrb : (closingNode ctx nid er).best =
          er.best.update (scoreDir ctx nid er.stats ((ctx.snodeStats nid).sub er.stats))
            ctx.fid (er.last_fvalue + (|er.last_fvalue| + rtEps + ctx.eps))
            (decide (ctx.d_step = -1)) := by
        rw [closingNode, if_pos ⟨hg1, hg2⟩]
        dsimp only
        rw [if_pos hd1]
      have hsb : (stdClosingNode ctx nid es_).best =
          es_.best.update (scoreDir ctx nid es_.stats ((ctx.snodeStats nid).sub es_.stats))
            ctx.fid (es_.last_fvalue + (|es_.last_fvalue| + rtEps))
            (decide (ctx.d_step = -1)) := by
        rw [stdClosingNode, if_pos ⟨by rw [← r1]; exact hg1, by rw [← r1]; exact hg2⟩]
        dsimp only
        rw [if_pos hd1]
      rw [hrb, hsb, heps, add_zero, ← r1, ← r2]
      have hk : (0 : ℚ) < |er.last_fvalue| + rtEps :=
        add_pos_of_nonneg_of_pos (abs_nonneg _) (by norm_num [rtEps])
      have hthr_gt : ∀ x ∈ es,
          x.fvalue < er.last_fvalue + (|er.last_fvalue| + rtEps) := by
        intro x hx
        have := r7 x hx
        linarith
      rcases r9 with ⟨ha, hb⟩ |
        ⟨hEq, hPos, hir, his, hdl', pre, a, b, suf, hsp, hab, hbrv, hbsv⟩
      · rcases lt_trichotomy 0
          (scoreDir ctx nid er.stats ((ctx.snodeStats nid).sub er.stats)) with hL | hL | hL
        · rw [SplitEntry.update_pos er.best
            (show er.best.needReplace _ ctx.fid _ from Or.inl (by rw [ha]; exact hL))]
          rw [SplitEntry.update_pos es_.best
            (show es_.best.needReplace _ ctx.fid _ from Or.inl (by rw [hb]; exact hL))]
          exact Or.inr (Or.inl ⟨rfl, hL, hthr_gt⟩)
        · refine Or.inl ⟨?_, ?_⟩ <;> rw [SplitEntry.update] <;> split_ifs <;>
            simp [ha, hb, ← hL]
        · have hbr : ¬ er.best.needReplace
              (scoreDir ctx nid er.stats ((ctx.snodeStats nid).sub er.stats)) ctx.fid
              (er.last_fvalue + (|er.last_fvalue| + rtEps)) := by
            intro hrep
            rcases hrep with h | ⟨h1, _⟩
            · rw [ha] at h; linarith
            · rw [ha] at h1; linarith
          have hbs : ¬ es_.best.needReplace
              (scoreDir ctx nid er.stats ((ctx.snodeStats nid).sub er.stats)) ctx.fid
              (er.last_fvalue + (|er.last_fvalue| + rtEps)) := by
            intro hrep
            rcases hrep with h | ⟨h1, _⟩
            · rw [hb] at h; linarith
            · rw [hb] at h1; linarith
          rw [SplitEntry.update_neg er.best hbr, SplitEntry.update_neg es_.best hbs]
          exact Or.inl ⟨ha, hb⟩
      · have hbmem : b ∈ es := by rw [hsp]; simp
        have hamem : a ∈ es := by rw [hsp]; simp
        have hbfv : b.fvalue ≤ er.last_fvalue := r7 b hbmem
        have hafv : a.fvalue ≤ er.last_fvalue := r7 a hamem
        have hbrlt : er.best.split_value < er.last_fvalue + (|er.last_fvalue| + rtEps) := by
          rw [hbrv]; linarith
        have hbslt : es_.best.split_value < er.last_fvalue + (|er.last_fvalue| + rtEps) := by
          rw [hbsv]; linarith
        rcases lt_trichotomy er.best.loss_chg
          (scoreDir ctx nid er.stats ((ctx.snodeStats nid).sub er.stats)) with hL | hL | hL
        · rw [SplitEntry.update_pos er.best
            (show er.best.needReplace _ ctx.fid _ from Or.inl hL)]
          rw [SplitEntry.update_pos es_.best
            (show es_.best.needReplace _ ctx.fid _ from Or.inl (by rw [← hEq]; exact hL))]
          exact Or.inr (Or.inl ⟨rfl, lt_trans hPos hL, hthr_gt⟩)
        · have hbr : ¬ er.best.needReplace
              (scoreDir ctx nid er.stats ((ctx.snodeStats nid).sub er.stats)) ctx.fid
              (er.last_fvalue + (|er.last_fvalue| + rtEps)) := by
            intro hrep
            rcases hrep with h | ⟨_, h2⟩
            · rw [hL] at h; linarith
            · rcases h2 with h2 | ⟨_, h3⟩
              · rw [hir] at h2; exact absurd h2 (lt_irrefl _)
              · linarith
          have hbs : ¬ es_.best.needReplace
              (scoreDir ctx nid er.stats ((ctx.snodeStats nid).sub er.stats)) ctx.fid
              (er.last_fvalue + (|er.last_fvalue| + rtEps)) := by
            intro hrep
            rcases hrep with h | ⟨_, h2⟩
            · rw [← hEq, hL] at h; linarith
            · rcases h2 with h2 | ⟨_, h3⟩
              · rw [his] at h2; exact absurd h2 (lt_irrefl _)
              · linarith
          rw [SplitEntry.update_neg er.best hbr, SplitEntry.update_neg es_.best hbs]
          exact Or.inr (Or.inr ⟨hEq, hPos, hir, his, hdl', pre, a, b, suf, hsp,
            hab, hbrv, hbsv⟩)
        · have hbr : ¬ er.best.needReplace
              (scoreDir ctx nid er.stats ((ctx.snodeStats nid).sub er.stats)) ctx.fid
              (er.last_fvalue + (|er.last_fvalue| + rtEps)) := by
            intro hrep
            rcases hrep with h | ⟨h1, _⟩
            · linarith
            · linarith
          have hbs : ¬ es_.best.needReplace
              (scoreDir ctx nid er.stats ((ctx.snodeStats nid).sub er.stats)) ctx.fid
              (er.last_fvalue + (|er.last_fvalue| + rtEps)) := by
            intro hrep
            rcases hrep with h | ⟨h1, _⟩
            · rw [← hEq] at h; linarith
            · rw [← hEq] at h1; linarith
          rw [SplitEntry.update_neg er.best hbr, SplitEntry.update_neg es_.best hbs]
          exact Or.inr (Or.inr ⟨hEq, hPos, hir, his, hdl', pre, a, b, suf, hsp,
            hab, hbrv, hbsv⟩)
    · have hrb : (closingNode ctx nid er).best = er.best := by
        rw [closingNode, if_neg (fun hc => hg2 hc.2)]
      have hsb : (stdClosingNode ctx nid es_).best = es_.best := by
        rw [stdClosingNode, if_neg (fun hc => hg2 (by rw [r1]; exact hc.2))]
      rw [hrb, hsb]
      exact bestRel_to_finalRel ctx es er.best es_.best r9
  · have hrb : (closingNode ctx nid er).best = er.best := by
      rw [closingNode, if_neg (fun hc => hg1 hc.1)]
    have hsb : (stdClosingNode ctx nid es_).best = es_.best := by
      rw [stdClosingNode, if_neg (fun hc => hg1 (by rw [r1]; exact hc.1))]
    rw [hrb, hsb]
    exact bestRel_to_finalRel ctx es er.best es_.best r9

/-- C8 (amended: forward direction): when `robust_eps = 0` the two queues
drain fully before each evaluation (`data_unc` empty, `stats_left = stats`),
the three uncertainty candidates collapse to the nominal candidate, and on a
forward sweep (`d_step = 1`) the robust enumeration selects the same split per
node as the standard non-robust enumeration on the same ascending column,
gradients and direction: for every frontier node whose best starts at the
default, the robust pipeline (reset, sweep with draining queues, closing pass,
midpoint post-pass) selects exactly the split the standard pipeline (reset,
`UpdateEnumeration` sweep, closing block) selects.  For a backward sweep the
selection can differ (see the counterexample): the robust sweep normalizes the
scan to ascending order, so its closing threshold derives from the maximum
scanned value while the standard backward closing threshold derives from the
minimum. -/
theorem C8_eps_zero_reduction (ctx : EnumCtx) (qexpand : List ℕ) (col : List Entry)
    (t0 : ℕ → ThreadEntry) (nid : ℕ)
    (heps : ctx.eps = 0) (hd1 : ctx.d_step = 1) (hq : nid ∈ qexpand)
    (hsorted : List.Sorted (fun a b : Entry => a.fvalue ≤ b.fvalue) col)
    (hbest : (t0 nid).best = SplitEntry.init) :
    selectedSplit ((enumerateSplit ctx qexpand col t0) nid).best =
      selectedSplit ((stdEnumerateDir ctx qexpand col t0) nid).best := by
  have hord : stdScanOrder ctx col = col := by
    rw [stdScanOrder, if_neg (by rw [hd1]; decide)]
  rw [stdEnumerateDir, hord]
  have hnorm : normalizeCol col = col := normalizeCol_sorted col hsorted
  have hrob : enumerateSplit ctx qexpand col t0 =
      midPass ctx col (closingPass ctx qexpand (enumSweep ctx col (resetTemp qexpand t0))) := by
    simp only [enumerateSplit, hnorm]
  rw [hrob]
  have her0 : resetTemp qexpand t0 nid = clearEntry (t0 nid) := by
    rw [resetTemp, if_pos hq]
  have hes0 : stdResetTemp qexpand t0 nid = { t0 nid with stats := GradStats.zero } := by
    rw [stdResetTemp, if_pos hq]
  have hswT : enumSweep ctx col (resetTemp qexpand t0) nid =
      (nodeScan ctx nid col).foldl (enumStep ctx nid) (clearEntry (t0 nid)) := by
    rw [enumSweep_proj, her0]
  have hT : closingPass ctx qexpand (enumSweep ctx col (resetTemp qexpand t0)) nid =
      closingNode ctx nid
        ((nodeScan ctx nid col).foldl (enumStep ctx nid) (clearEntry (t0 nid))) := by
    rw [closingPass]
    rw [if_pos hq, hswT]
  have hstd : stdEnumerate ctx qexpand col t0 nid =
      stdClosingNode ctx nid
        ((nodeScan ctx nid col).foldl (updateEnumeration ctx nid)
          ({ t0 nid with stats := GradStats.zero })) := by
    rw [stdEnumerate]
    rw [if_pos hq, stdSweep_proj, hes0]
  rw [hstd]
  have hmid := midPass_proj ctx nid col
    ⟨closingPass ctx qexpand (enumSweep ctx col (resetTemp qexpand t0)),
      fun _ => none, fun _ => false⟩
  have hmid1 : midPass ctx col
      (closingPass ctx qexpand (enumSweep ctx col (resetTemp qexpand t0))) nid =
      ((nodeScan ctx nid col).foldl (midStepN ctx)
        (closingPass ctx qexpand (enumSweep ctx col (resetTemp qexpand t0)) nid,
          none, false)).1 :=
    congrArg Prod.fst hmid
  rw [midPass] at hmid1
  rw [midPass, hmid1, hT]
  have hinit : SweepRel ctx [] (clearEntry (t0 nid)) ({ t0 nid with stats := GradStats.zero }) := by
    refine ⟨rfl, rfl, rfl, ?_, ?_, fun _ => ⟨rfl, rfl⟩, ?_, fun h => absurd rfl h, ?_⟩
    · show GradStats.zero.add (gsSum ctx.gpair []) = GradStats.zero
      rw [show gsSum ctx.gpair [] = GradStats.zero from rfl, GradStats.add_zero]
    · intro x hx; cases hx
    · intro x hx; cases hx
    · refine Or.inl ⟨?_, ?_⟩
      · show (t0 nid).best.loss_chg = 0
        rw [hbest]; rfl
      · show (t0 nid).best.loss_chg = 0
        rw [hbest]; rfl
  have hns_sorted : List.Sorted (fun a b : Entry => a.fvalue ≤ b.fvalue)
      (nodeScan ctx nid col) :=
    hsorted.sublist (List.filter_sublist col)
  have hsw := c8_sweep_rel ctx nid heps (nodeScan ctx nid col) []
    (clearEntry (t0 nid)) ({ t0 nid with stats := GradStats.zero }) hns_sorted
    (fun h => absurd rfl h) hinit
  rw [List.nil_append] at hsw
  have hfin := c8_closing_rel ctx nid heps hd1 (nodeScan ctx nid col) _ _ hsw
  have hn0 : ¬ rtEps < (0 : ℚ) := by norm_num [rtEps]
  set cr := closingNode ctx nid
    ((nodeScan ctx nid col).foldl (enumStep ctx nid) (clearEntry (t0 nid))) with hcr
  set cs := stdClosingNode ctx nid
    ((nodeScan ctx nid col).foldl (updateEnumeration ctx nid)
      ({ t0 nid with stats := GradStats.zero })) with hcs
  rcases hfin with ⟨ha, hb⟩ | ⟨hEq, _, hlt⟩ |
    ⟨hEq, _, hir, his, hdl, pre, a, b, suf, hsp, hab, hbrv, hbsv⟩
  · have hk := (midFoldN_keeps ctx (nodeScan ctx nid col) (cr, none, false)).1
    simp only [selectedSplit]
    rw [hk, ha, hb, if_neg hn0, if_neg hn0]
  · have hnf := midFoldN_nofire ctx (nodeScan ctx nid col) cr none false hlt
    rw [hnf, hEq]
  · have hpre : ∀ x ∈ pre, x.fvalue ≤ a.fvalue := by
      have hp := (List.pairwise_append.mp (hsp ▸ hns_sorted)).2.2
      intro x hx
      exact hp x hx a (List.mem_cons_self a _)
    have hfire := midFoldN_fire ctx cr a b hir hbrv hab pre suf none hpre (Or.inl rfl)
    rw [hsp, hfire]
    simp only [selectedSplit]
    have hl : (cr.best.updateSplitValue ((b.fvalue + a.fvalue) / 2)).loss_chg =
        cs.best.loss_chg := by
      rw [show ∀ (s : SplitEntry) (v : ℚ), (s.updateSplitValue v).loss_chg = s.loss_chg
        from fun s v => rfl]
      exact hEq
    rw [hl]
    by_cases hc : rtEps < cs.best.loss_chg
    · rw [if_pos hc, if_pos hc]
      rw [show ∀ (s : SplitEntry) (v : ℚ), (s.updateSplitValue v).split_index = s.split_index
        from fun s v => rfl, hir, his]
      rw [show ∀ (s : SplitEntry) (v : ℚ), (s.updateSplitValue v).split_value = v
        from fun s v => rfl, ← hbsv]
      rw [show ∀ (s : SplitEntry) (v : ℚ), (s.updateSplitValue v).default_left = s.default_left
        from fun s v => rfl, hdl]
    · rw [if_neg hc, if_neg hc]

/-- Witness for C8 at a concrete forward-sweep context with `eps = 0`. -/
theorem C8_eps_zero_reduction_witness :
    ctxF.eps = 0 ∧ ctxF.d_step = 1 ∧ 0 ∈ [0] ∧
    List.Sorted (fun a b : Entry => a.fvalue ≤ b.fvalue) colZ ∧
    ((fun _ : ℕ => blankTE) 0).best = SplitEntry.init ∧
    selectedSplit ((enumerateSplit ctxF [0] colZ (fun _ => blankTE)) 0).best =
      selectedSplit ((stdEnumerateDir ctxF [0] colZ (fun _ => blankTE)) 0).best :=
  ⟨rfl, rfl, by simp, by norm_num [colZ, List.sorted_cons], rfl,
    C8_eps_zero_reduction ctxF [0] colZ (fun _ => blankTE) 0 rfl rfl (by simp)
      (by norm_num [colZ, List.sorted_cons]) rfl⟩

-- Evaluation of the backward counterexample: the robust sweep state over
-- `colB` (the interior evaluation gate fails on hessian 1/2 < 1).
theorem rbB_sweep_eval :
    enumSweep ctxB colB (resetTemp [0] (fun _ => blankTE)) 0 =
      ⟨⟨2, 1⟩, ⟨1, 1 / 2⟩, ⟨1, 1 / 2⟩, 1, ⟨1, 1 / 2⟩, ⟨1, 1 / 2⟩,
        [⟨1, 2⟩], [⟨1, 2⟩], 2, SplitEntry.init⟩ := by
  have hns : nodeScan ctxB 0 colB = [⟨0, -2⟩, ⟨1, 2⟩] := by
    norm_num [nodeScan, colB, ctxB, List.filter]
  have h0 : resetTemp [0] (fun _ : ℕ => blankTE) 0 = blankTE := by
    rw [resetTemp, if_pos (by simp)]
    rfl
  rw [enumSweep_proj, hns, h0]
  have hs1 : enumStep ctxB 0 blankTE ⟨0, -2⟩ =
      ⟨⟨1, 1 / 2⟩, GradStats.zero, GradStats.zero, 0, ⟨1, 1 / 2⟩, ⟨1, 1 / 2⟩,
        [⟨0, -2⟩], [⟨0, -2⟩], -2, SplitEntry.init⟩ := by
    norm_num [enumStep, blankTE, GradStats.isEmpty, absorbEntry, ctxB, gpB,
      GradStats.addPair, GradStats.zero]
  rw [List.foldl_cons, hs1, List.foldl_cons, List.foldl_nil]
  rw [enumStep, if_neg (by norm_num [GradStats.isEmpty])]
  have heq : ((⟨1, 2⟩ : Entry).fvalue - ctxB.eps) = ((2 : ℚ) - ctxB.eps) := rfl
  have hd : robustDrain ctxB ((2 : ℚ) - ctxB.eps)
      (⟨⟨1, 1 / 2⟩, GradStats.zero, GradStats.zero, 0, ⟨1, 1 / 2⟩, ⟨1, 1 / 2⟩,
        [⟨0, -2⟩], [⟨0, -2⟩], -2, SplitEntry.init⟩ : ThreadEntry) =
      ⟨⟨1, 1 / 2⟩, ⟨1, 1 / 2⟩, ⟨1, 1 / 2⟩, 1, ⟨0, 0⟩, ⟨0, 0⟩,
        [], [], -2, SplitEntry.init⟩ := by
    norm_num [robustDrain, drainUR, drainU, ctxB, gpB, GradStats.addPair,
      GradStats.subPair, GradStats.zero]
  rw [heq, hd]
  have he : robustEval ctxB 0 ((2 : ℚ) - ctxB.eps) (⟨1, 2⟩ : Entry).fvalue
      (⟨⟨1, 1 / 2⟩, ⟨1, 1 / 2⟩, ⟨1, 1 / 2⟩, 1, ⟨0, 0⟩, ⟨0, 0⟩,
        [], [], -2, SplitEntry.init⟩ : ThreadEntry) =
      ⟨⟨1, 1 / 2⟩, ⟨1, 1 / 2⟩, ⟨1, 1 / 2⟩, 1, ⟨0, 0⟩, ⟨0, 0⟩,
        [], [], -2, SplitEntry.init⟩ := by
    rw [robustEval, if_neg (by norm_num [ctxB])]
  rw [he]
  norm_num [absorbEntry, ctxB, gpB, GradStats.addPair]

-- The robust pipeline over `colB`: the winning closing candidate's
-- max-derived threshold is repaired by the midpoint pass to 0.
theorem rbB_eval :
    (enumerateSplit ctxB [0] colB (fun _ => blankTE)) 0 =
      ⟨⟨2, 1⟩, ⟨1, 1 / 2⟩, ⟨1, 1 / 2⟩, 1, ⟨1, 1 / 2⟩, ⟨1, 1 / 2⟩,
        [⟨1, 2⟩], [⟨1, 2⟩], 2, ⟨8, 0, 0, true⟩⟩ := by
  have hnorm : normalizeCol colB = colB :=
    normalizeCol_sorted colB (by norm_num [colB, List.sorted_cons])
  have hrob : enumerateSplit ctxB [0] colB (fun _ => blankTE) =
      midPass ctxB colB
        (closingPass ctxB [0] (enumSweep ctxB colB (resetTemp [0] (fun _ => blankTE)))) := by
    simp only [enumerateSplit, hnorm]
  rw [hrob]
  have habs2 : |(2 : ℚ)| = 2 := abs_of_nonneg (by norm_num)
  have hcl : closingPass ctxB [0]
      (enumSweep ctxB colB (resetTemp [0] (fun _ => blankTE))) 0 =
      ⟨⟨2, 1⟩, ⟨1, 1 / 2⟩, ⟨1, 1 / 2⟩, 1, ⟨1, 1 / 2⟩, ⟨1, 1 / 2⟩,
        [⟨1, 2⟩], [⟨1, 2⟩], 2, ⟨8, 0, -(1 / 1000000), true⟩⟩ := by
    rw [closingPass]
    rw [if_pos (by simp), rbB_sweep_eval]
    rw [closingNode]
    rw [if_pos (by constructor <;> norm_num [ctxB, GradStats.sub])]
    norm_num [scoreDir, ctxB, scoreW, GradStats.sub, SplitEntry.update,
      SplitEntry.needReplace, SplitEntry.init, rtEps, habs2]
  have hmid1 : (colB.foldl (midStep ctxB)
      ⟨closingPass ctxB [0] (enumSweep ctxB colB (resetTemp [0] (fun _ => blankTE))),
        fun _ => none, fun _ => false⟩).temp 0 =
      ((nodeScan ctxB 0 colB).foldl (midStepN ctxB)
        (closingPass ctxB [0] (enumSweep ctxB colB (resetTemp [0] (fun _ => blankTE))) 0,
          none, false)).1 :=
    congrArg Prod.fst (midPass_proj ctxB 0 colB _)
  have hns : nodeScan ctxB 0 colB = [⟨0, -2⟩, ⟨1, 2⟩] := by
    norm_num [nodeScan, colB, ctxB, List.filter]
  rw [midPass, hmid1, hns, hcl]
  have hm1 : midStepN ctxB
      ((⟨⟨2, 1⟩, ⟨1, 1 / 2⟩, ⟨1, 1 / 2⟩, 1, ⟨1, 1 / 2⟩, ⟨1, 1 / 2⟩,
        [⟨1, 2⟩], [⟨1, 2⟩], 2, ⟨8, 0, -(1 / 1000000), true⟩⟩ : ThreadEntry),
        (none : Option ℚ), false) ⟨0, -2⟩ =
      (⟨⟨2, 1⟩, ⟨1, 1 / 2⟩, ⟨1, 1 / 2⟩, 1, ⟨1, 1 / 2⟩, ⟨1, 1 / 2⟩,
        [⟨1, 2⟩], [⟨1, 2⟩], 2, ⟨8, 0, -(1 / 1000000), true⟩⟩,
        some (-2 : ℚ), false) := by
    norm_num [midStepN, ctxB]
  have hm2 : midStepN ctxB
      ((⟨⟨2, 1⟩, ⟨1, 1 / 2⟩, ⟨1, 1 / 2⟩, 1, ⟨1, 1 / 2⟩, ⟨1, 1 / 2⟩,
        [⟨1, 2⟩], [⟨1, 2⟩], 2, ⟨8, 0, -(1 / 1000000), true⟩⟩ : ThreadEntry),
        some (-2 : ℚ), false) ⟨1, 2⟩ =
      (⟨⟨2, 1⟩, ⟨1, 1 / 2⟩, ⟨1, 1 / 2⟩, 1, ⟨1, 1 / 2⟩, ⟨1, 1 / 2⟩,
        [⟨1, 2⟩], [⟨1, 2⟩], 2, ⟨8, 0, 0, true⟩⟩,
        some (2 : ℚ), true) := by
    norm_num [midStepN, ctxB, SplitEntry.updateSplitValue]
  rw [List.foldl_cons, hm1, List.foldl_cons, hm2, List.foldl_nil]

-- The standard backward pipeline over `colB`: same sweep contributions, same
-- closing loss 8, but the min-derived threshold -4 - kRtEps.
theorem sdB_eval :
    (stdEnumerateDir ctxB [0] colB (fun _ => blankTE)) 0 =
      ⟨⟨2, 1⟩, GradStats.zero, GradStats.zero, 0, GradStats.zero, GradStats.zero,
        [], [], -2, ⟨8, 0, -4 - 1 / 1000000, true⟩⟩ := by
  have hso : stdScanOrder ctxB colB = [⟨1, 2⟩, ⟨0, -2⟩] := by
    rw [stdScanOrder, if_pos (show ctxB.d_step = -1 from rfl)]
    rfl
  rw [stdEnumerateDir, hso, stdEnumerate]
  rw [if_pos (by simp)]
  rw [stdSweep_proj]
  have h0 : stdResetTemp [0] (fun _ : ℕ => blankTE) 0 = blankTE := by
    rw [stdResetTemp, if_pos (by simp)]
    rfl
  have hns : nodeScan ctxB 0 [(⟨1, 2⟩ : Entry), ⟨0, -2⟩] = [⟨1, 2⟩, ⟨0, -2⟩] := by
    norm_num [nodeScan, ctxB, List.filter]
  rw [hns, h0]
  have hu1 : updateEnumeration ctxB 0 blankTE ⟨1, 2⟩ =
      ⟨⟨1, 1 / 2⟩, GradStats.zero, GradStats.zero, 0, GradStats.zero,
        GradStats.zero, [], [], 2, SplitEntry.init⟩ := by
    norm_num [updateEnumeration, blankTE, GradStats.isEmpty, GradStats.addPair,
      GradStats.zero, ctxB, gpB]
  have hu2 : updateEnumeration ctxB 0
      (⟨⟨1, 1 / 2⟩, GradStats.zero, GradStats.zero, 0, GradStats.zero,
        GradStats.zero, [], [], 2, SplitEntry.init⟩ : ThreadEntry) ⟨0, -2⟩ =
      ⟨⟨2, 1⟩, GradStats.zero, GradStats.zero, 0, GradStats.zero,
        GradStats.zero, [], [], -2, SplitEntry.init⟩ := by
    rw [updateEnumeration, if_neg (by norm_num [GradStats.isEmpty])]
    norm_num [ctxB, gpB, GradStats.addPair]
  rw [List.foldl_cons, hu1, List.foldl_cons, hu2, List.foldl_nil]
  have habsm2 : |(-2 : ℚ)| = 2 := by
    rw [abs_of_nonpos (by norm_num)]
    norm_num
  rw [stdClosingNode]
  rw [if_pos (by constructor <;> norm_num [ctxB, GradStats.sub])]
  norm_num [scoreDir, ctxB, scoreW, GradStats.sub, SplitEntry.update,
    SplitEntry.needReplace, SplitEntry.init, rtEps, habsm2]

/-- C8 counterexample (backward direction): at `eps = 0` on a backward sweep
(`d_step = -1`) over the mixed-sign column `colB`, with an instance missing
from the column and the symmetric Newton score, both pipelines store the same
winning closing candidate (loss 8, feature 0, default left), but the robust
enumeration — which normalizes its scan to ascending order — derives the
closing threshold from the maximum scanned value and the midpoint pass then
moves it to 0, inside the value range, while the standard backward enumeration
derives it from the minimum, `-4 - kRtEps`, below the range: the selected
splits differ, so the claimed per-node agreement fails for the backward
direction. -/
theorem C8_counterexample :
    ctxB.eps = 0 ∧ ctxB.d_step = -1 ∧
    selectedSplit ((enumerateSplit ctxB [0] colB (fun _ => blankTE)) 0).best =
      some (0, 0, true) ∧
    selectedSplit ((stdEnumerateDir ctxB [0] colB (fun _ => blankTE)) 0).best =
      some (0, -4 - 1 / 1000000, true) ∧
    selectedSplit ((enumerateSplit ctxB [0] colB (fun _ => blankTE)) 0).best ≠
      selectedSplit ((stdEnumerateDir ctxB [0] colB (fun _ => blankTE)) 0).best := by
  refine ⟨rfl, rfl, ?_, ?_, ?_⟩
  · rw [rbB_eval]
    rw [selectedSplit, if_pos (by norm_num [rtEps])]
  · rw [sdB_eval]
    rw [selectedSplit, if_pos (by norm_num [rtEps])]
  · rw [rbB_eval, sdB_eval]
    simp only [selectedSplit]
    rw [if_pos (by norm_num [rtEps]), if_pos (by norm_num [rtEps])]
    intro hcon
    simp only [Option.some.injEq, Prod.mk.injEq] at hcon
    exact absurd hcon.2.1 (by norm_num)

end RobustTrees
